import Mathlib

/-!
# Reposcape: commit-graph layout and playback

A shallow embedding of `src/App.jsx` (the `App` component): the lane
assignment of `processCommitGraph`, the assembly, sorting and indexing steps
of `handleFetch`, and the reveal ticker of the animation effect.

Conventions of the embedding.

* A JavaScript `Map` keyed by strings is an insertion-ordered association
  list (`JSMap`); the objects stored in it are values, and an in-place
  mutation of the object stored under a key is `JSMap.update`.
* `undefined`/`null` is `none`; the truthiness test of a string is `truthy`
  (the empty string is falsy).
* The plain object `branchColumns` is a function from keys to the values
  read under them (`Columns`): the empty object gives the inherited
  properties of `Object.prototype`, and an assignment under `__proto__`
  stores nothing.
* A `while` loop is a function with a fuel argument counting the executions of
  the loop body; `none` means that the fuel ran out.
* Network responses are arguments of `handleFetch`.
-/

namespace Reposcape

/-! ## Values -/

/-- Truthiness of a JavaScript string: only the empty string is falsy. -/
def truthy (s : String) : Bool := s != ""

/-- Truthiness of a string that may be `undefined` or `null`. -/
def truthyOpt : Option String → Bool
  | none => false
  | some s => truthy s

/-- The JavaScript expression `a || b` on possibly undefined strings. -/
def jsOr (a b : Option String) : Option String :=
  if truthyOpt a then a else b

/-- A value read from the plain object `branchColumns`: a lane number stored
by the lane loop, or the property that the object inherits from
`Object.prototype` under a key (under `__proto__`, `Object.prototype` itself).
Neither is `undefined`. -/
inductive LaneValue where
  | number (n : Int)
  | inherited (key : String)
  deriving DecidableEq, Repr

/-- A commit object: the fields of the fetched record that the program reads
(`sha`, `parents[i].sha`, the time value of `commit.author.date`, `url`) and
the fields the program adds to it. -/
structure Commit where
  sha : String
  parents : List String
  date : Int
  url : String
  column : Option LaneValue
  branchName : Option String
  isMainBranch : Bool
  timelineIndex : Option Nat
  deriving DecidableEq, Repr

/-- The `commit` field of a branch object. -/
structure BranchCommit where
  sha : String
  deriving DecidableEq, Repr

/-- A branch object of the branch-list response. -/
structure BranchRef where
  name : String
  commit : BranchCommit
  deriving DecidableEq, Repr

/-! ## JavaScript `Map` with string keys -/

/-- An insertion-ordered map with string keys. -/
abbrev JSMap (α : Type) := List (String × α)

namespace JSMap

variable {α : Type}

/-- The method `Map.prototype.has`. -/
def has (m : JSMap α) (k : String) : Bool := m.any (fun e => e.1 == k)

/-- The method `Map.prototype.get`. -/
def get (m : JSMap α) (k : String) : Option α :=
  (m.find? (fun e => e.1 == k)).map (fun e => e.2)

/-- The method `Map.prototype.set`: an existing key keeps its position and
takes the new value, a new key is appended. -/
def set (m : JSMap α) (k : String) (v : α) : JSMap α :=
  if has m k then m.map (fun e => if e.1 == k then (k, v) else e) else m ++ [(k, v)]

/-- The constructor `new Map(entries)`. -/
def ofEntries (es : List (String × α)) : JSMap α :=
  es.foldl (fun m e => set m e.1 e.2) []

/-- The values in insertion order: `Array.from(m.values())`. -/
def values (m : JSMap α) : List α := m.map (fun e => e.2)

/-- In-place mutation, by `f`, of the object stored under key `k`. -/
def update (m : JSMap α) (k : String) (f : α → α) : JSMap α :=
  m.map (fun e => if e.1 == k then (e.1, f e.2) else e)

/-- In-place mutation, by `f`, of every stored object: `m.forEach(f)`. -/
def forEach (m : JSMap α) (f : α → α) : JSMap α :=
  m.map (fun e => (e.1, f e.2))

end JSMap

/-! ## `processCommitGraph` -/

/-- The trunk name: `branches.find(b => b.name === 'main' || b.name ===
'master')?.name || branches[0]?.name`. -/
def mainBranchName (branches : List BranchRef) : Option String :=
  jsOr ((branches.find? (fun b => b.name == "main" || b.name == "master")).map (fun b => b.name))
    (branches.head?.map (fun b => b.name))

/-- The plain object `branchColumns`, used as a dictionary from branch names
to lanes: what a read `branchColumns[k]` gives, `none` for `undefined`. -/
abbrev Columns := String → Option LaneValue

/-- The property names of `Object.prototype`, which every plain object
inherits. -/
def objectPrototypeKeys : List String :=
  ["constructor", "__defineGetter__", "__defineSetter__", "hasOwnProperty",
   "__lookupGetter__", "__lookupSetter__", "isPrototypeOf", "propertyIsEnumerable",
   "toString", "valueOf", "__proto__", "toLocaleString"]

/-- The object `{}`: a read gives the inherited property under a property
name of `Object.prototype`, and `undefined` under every other key. -/
def emptyObject : Columns :=
  fun k => if k ∈ objectPrototypeKeys then some (LaneValue.inherited k) else none

/-- The assignment `branchColumns[k] = v` of a number. Under the key
`__proto__` the assignment runs the inherited setter, which ignores a number
and stores nothing; under every other key it creates or updates an own
property. -/
def Columns.set (bc : Columns) (k : String) (v : Int) : Columns :=
  if k = "__proto__" then bc
  else fun x => if x = k then some (LaneValue.number v) else bc x

/-- The variables of the lane loop. -/
structure LaneState where
  branchColumns : Columns
  columnCounter : Int
  sign : Int

/-- The start of the lane loop: `branchColumns = {}`, with the trunk at lane
0 when `mainBranchName` is truthy, `columnCounter = 1`, `sign = 1`. -/
def laneInit (main : Option String) : LaneState :=
  { branchColumns :=
      match main with
      | some m => if truthy m then Columns.set emptyObject m 0 else emptyObject
      | none => emptyObject
    columnCounter := 1
    sign := 1 }

/-- One round of `branches.forEach` in the lane loop. -/
def laneStep (main : Option String) (st : LaneState) (branch : BranchRef) : LaneState :=
  if some branch.name ≠ main then
    { branchColumns := Columns.set st.branchColumns branch.name (st.columnCounter * st.sign)
      columnCounter := st.columnCounter + 1
      sign := st.sign * -1 }
  else st

/-- The dictionary `branchColumns` after the lane loop. -/
def branchColumns (main : Option String) (branches : List BranchRef) : Columns :=
  (branches.foldl (laneStep main) (laneInit main)).branchColumns

/-- The body of the walk loop on the visited node: claim the node when its
column is undefined, and mark it when the branch is the trunk. -/
def visit (bc : Columns) (main : Option String) (branch : BranchRef) (node : Commit) : Commit :=
  let claimed :=
    if node.column = none then
      { node with column := bc branch.name, branchName := some branch.name }
    else node
  if some branch.name = main then { claimed with isMainBranch := true } else claimed

/-- The next value of `currentSha`: the first parent, or `null`. -/
def firstParent (node : Commit) : Option String := node.parents.head?

/-- The node on which the walk loop runs its body next, if the loop condition
`currentSha && commitMap.has(currentSha)` holds. -/
def current (cm : JSMap Commit) (currentSha : Option String) : Option (String × Commit) :=
  match currentSha with
  | none => none
  | some s => if truthy s then (JSMap.get cm s).map (fun node => (s, node)) else none

/-- The walk loop of one branch, `while (currentSha && commitMap.has(currentSha))`,
with `fuel` bounding the executions of its body. -/
def walk (bc : Columns) (main : Option String) (branch : BranchRef) :
    Nat → Option String → JSMap Commit → Option (JSMap Commit)
  | 0, currentSha, cm =>
    match current cm currentSha with
    | none => some cm
    | some _ => none
  | fuel + 1, currentSha, cm =>
    match current cm currentSha with
    | none => some cm
    | some (s, node) =>
      walk bc main branch fuel (firstParent node) (JSMap.update cm s (visit bc main branch))

/-- The reset at the start: `commit.column = undefined; commit.isMainBranch = false`. -/
def resetNode (c : Commit) : Commit :=
  { c with column := none, isMainBranch := false }

/-- The fallback at the end: a node whose column is still undefined gets
column 0 and, when `mainBranchName` is truthy, the trunk mark. -/
def fallback (main : Option String) (c : Commit) : Commit :=
  if c.column = none then
    { c with
      column := some (LaneValue.number 0)
      isMainBranch := if truthyOpt main then true else c.isMainBranch }
  else c

/-- The branches that are not the trunk: `branches.filter(b => b.name !==
mainBranchName)`. -/
def nonTrunk (main : Option String) (branches : List BranchRef) : List BranchRef :=
  branches.filter (fun b => decide (some b.name ≠ main))

/-- The trunk entries: `branches.filter(b => b.name === mainBranchName)`. -/
def trunkOnly (main : Option String) (branches : List BranchRef) : List BranchRef :=
  branches.filter (fun b => decide (some b.name = main))

/-- The list `orderedBranches`: the non-trunk branches, then the trunk. -/
def orderedBranches (main : Option String) (branches : List BranchRef) : List BranchRef :=
  nonTrunk main branches ++ trunkOnly main branches

/-- The walks of a list of branches, one after the other, each with `fuel`. -/
def walkAll (bc : Columns) (main : Option String) (fuel : Nat) :
    List BranchRef → JSMap Commit → Option (JSMap Commit)
  | [], cm => some cm
  | b :: bs, cm =>
    match walk bc main b fuel (some b.commit.sha) cm with
    | none => none
    | some cm1 => walkAll bc main fuel bs cm1

/-- The function `processCommitGraph`; `none` when a walk runs out of fuel. -/
def processCommitGraph (fuel : Nat) (allCommits : List Commit) (branches : List BranchRef) :
    Option (List Commit) :=
  let main := mainBranchName branches
  let bc := branchColumns main branches
  let commitMap := JSMap.forEach (JSMap.ofEntries (allCommits.map (fun c => (c.sha, c)))) resetNode
  (walkAll bc main fuel (orderedBranches main branches) commitMap).map
    (fun cm => JSMap.values (JSMap.forEach cm (fallback main)))

/-! ## `handleFetch` -/

/-- The callback of one commit-list response: every commit whose sha is not
yet a key of `commitMap` is added. -/
def mergeBranchCommits (commitMap : JSMap Commit) (branchCommits : List Commit) :
    JSMap Commit :=
  branchCommits.foldl (fun m c => if JSMap.has m c.sha then m else JSMap.set m c.sha c) commitMap

/-- The map `commitMap` once every commit-list request has settled. The
responses are listed in the order in which they complete; `none` is a
response that is not `ok` or whose body is not an array. -/
def assemble (responses : List (Option (List Commit))) : JSMap Commit :=
  responses.foldl
    (fun m r =>
      match r with
      | none => m
      | some branchCommits => mergeBranchCommits m branchCommits)
    []

/-- The copy of the layout fields onto a detailed commit. -/
def attachLayout (graphMap : JSMap Commit) (detailedCommit : Commit) : Commit :=
  match JSMap.get graphMap detailedCommit.sha with
  | some originalCommit =>
    { detailedCommit with
      column := originalCommit.column
      isMainBranch := originalCommit.isMainBranch
      branchName := originalCommit.branchName }
  | none => detailedCommit

/-- The detailed commits that one batch pushes onto `finalCommits`; `detail
url` is `none` when the request for `url` fails or is not `ok`. -/
def settleBatch (detail : String → Option Commit) (graphMap : JSMap Commit)
    (batch : List Commit) : List Commit :=
  batch.filterMap (fun c => (detail c.url).map (attachLayout graphMap))

/-- The constant `batchSize`. -/
def batchSize : Nat := 50

/-- The loop `for (let i = 0; i < graphWithColumns.length; i += batchSize)`,
with `rounds` bounding the number of batches. -/
def detailLoop (detail : String → Option Commit) (graphMap : JSMap Commit)
    (graphWithColumns : List Commit) : Nat → Nat → List Commit → List Commit
  | 0, _, finalCommits => finalCommits
  | rounds + 1, i, finalCommits =>
    if i < graphWithColumns.length then
      detailLoop detail graphMap graphWithColumns rounds (i + batchSize)
        (finalCommits ++
          settleBatch detail graphMap ((graphWithColumns.drop i).take batchSize))
    else finalCommits

/-- The list `finalCommits` after the detail loop. -/
def fetchDetails (detail : String → Option Commit) (graphWithColumns : List Commit) :
    List Commit :=
  detailLoop detail (JSMap.ofEntries (graphWithColumns.map (fun c => (c.sha, c))))
    graphWithColumns graphWithColumns.length 0 []

/-- The comparator of the sort: `new Date(b.commit.author.date) - new
Date(a.commit.author.date)`, on valid dates. -/
def compareDates (a b : Commit) : Int := b.date - a.date

/-- The call `cleanFinalCommits.sort(compare)`: the stable sort that puts `a`
before `b` when the comparator is not positive. -/
def sortCommits (commits : List Commit) : List Commit :=
  commits.insertionSort (fun a b => compareDates a b ≤ 0)

/-- The loop `sortedCommits.forEach((commit, index) => commit.timelineIndex =
index)`, from position `start`. -/
def indexFrom : Nat → List Commit → List Commit
  | _, [] => []
  | start, c :: cs => { c with timelineIndex := some start } :: indexFrom (start + 1) cs

/-- The sort-and-index step of `handleFetch`. -/
def sortAndIndex (finalCommits : List Commit) : List Commit :=
  indexFrom 0 (sortCommits finalCommits)

/-- The state of the `App` component that `handleFetch` and the animation
effect write, with two history variables: the messages raised by `alert`, and
the number of calls of `processCommitGraph`. -/
structure AppState where
  commits : List Commit
  allFetchedCommits : List Commit
  isLoading : Bool
  isAnimating : Bool
  selectedCommit : Option Commit
  alerts : List String
  layoutCalls : Nat
  deriving DecidableEq, Repr

/-- The outcome of the branch-list request. -/
inductive BranchesResponse where
  | rejected (message : String)
  | notOk
  | ok (allBranches : List BranchRef)
  deriving DecidableEq, Repr

/-- The network as one run of `handleFetch` sees it: the branch-list response,
the commit-list responses in completion order, and the detail responses by
url. Every commit-list request is taken to settle with a response. -/
structure Network where
  branches : BranchesResponse
  commitLists : List (Option (List Commit))
  detail : String → Option Commit

/-- The message of the error thrown on a branch-list response that is not `ok`. -/
def branchesFailedMessage : String :=
  "Failed to fetch branches. Check repository URL and your API token."

/-- The exit of `handleFetch` through `catch` and `finally`. -/
def failWith (message : String) (s : AppState) : AppState :=
  { s with alerts := s.alerts ++ [message], isLoading := false }

/-- The function `handleFetch`, on the parts `urlParts` of the repository
URL; `none` when a walk of `processCommitGraph` runs out of fuel. -/
def handleFetch (fuel : Nat) (urlParts : List String) (net : Network) (s : AppState) :
    Option AppState :=
  let s1 := { s with isLoading := true, commits := [], allFetchedCommits := [],
                     selectedCommit := none }
  if !truthyOpt urlParts[0]? || !truthyOpt urlParts[1]? then
    some { s1 with alerts := s1.alerts ++ ["Please enter a valid GitHub repository URL."],
                   isLoading := false }
  else
    match net.branches with
    | .rejected message => some (failWith message s1)
    | .notOk => some (failWith branchesFailedMessage s1)
    | .ok allBranches =>
      let recentBranches := allBranches.take 10
      let allCommits := JSMap.values (assemble net.commitLists)
      match processCommitGraph fuel allCommits recentBranches with
      | none => none
      | some graphWithColumns =>
        let finalCommits := fetchDetails net.detail graphWithColumns
        some { s1 with
          allFetchedCommits := sortAndIndex finalCommits
          isAnimating := true
          isLoading := false
          layoutCalls := s1.layoutCalls + 1 }

/-! ## The animation effect -/

/-- The component state together with the live interval of the animation
effect: `timer = some index` when an interval is running whose closure
variable is `index`. -/
structure Session where
  app : AppState
  timer : Option Nat
  deriving DecidableEq, Repr

/-- What a tick of the interval does to the visible commits. -/
inductive TickEvent where
  | reveal (visible : List Commit)
  | completed
  deriving DecidableEq, Repr

/-- A run of the animation effect: the cleanup of the previous run clears its
interval; then, when `isAnimating` holds and there are commits, the visible
list is reset and a new interval starts with `index = 0`. -/
def runEffect (s : Session) : Session :=
  if s.app.isAnimating && decide (s.app.allFetchedCommits.length > 0) then
    { app := { s.app with commits := [] }, timer := some 0 }
  else
    { s with timer := none }

/-- One firing of the interval callback, with the event it produces. When
the callback sets `isAnimating` to false the effect runs again and starts
nothing. -/
def tick (s : Session) : Session × Option TickEvent :=
  match s.timer with
  | none => (s, none)
  | some index =>
    if index < s.app.allFetchedCommits.length then
      ({ app := { s.app with commits := s.app.allFetchedCommits.take (index + 1) }
         timer := some (index + 1) },
        some (TickEvent.reveal (s.app.allFetchedCommits.take (index + 1))))
    else
      (runEffect { app := { s.app with isAnimating := false }, timer := none },
        some TickEvent.completed)

/-- The session and the events after `n` interval periods. -/
def ticks : Nat → Session → Session × List TickEvent
  | 0, s => (s, [])
  | n + 1, s =>
    let r := tick s
    let rest := ticks n r.1
    (rest.1, r.2.toList ++ rest.2)

/-! ## Specification vocabulary -/

/-- The commit map on which the walks of `processCommitGraph` start: `new
Map(allCommits.map(c => [c.sha, c]))` after the reset of every node. -/
def initialMap (allCommits : List Commit) : JSMap Commit :=
  JSMap.forEach (JSMap.ofEntries (allCommits.map (fun c => (c.sha, c)))) resetNode

/-- The shas on which the walk loop runs its body when it starts at
`currentSha`, in order; `none` when the loop needs more than `fuel` rounds.
The control flow of `walk` reads only the keys and the parents of the map. -/
def chain (cm : JSMap Commit) : Nat → Option String → Option (List String)
  | 0, currentSha =>
    match current cm currentSha with
    | none => some []
    | some _ => none
  | fuel + 1, currentSha =>
    match current cm currentSha with
    | none => some []
    | some (s, node) => (chain cm fuel (firstParent node)).map (fun rest => s :: rest)

/-- The shas on which the first `rounds` rounds of the walk loop run. -/
def trail (cm : JSMap Commit) : Nat → Option String → List String
  | 0, _ => []
  | rounds + 1, currentSha =>
    match current cm currentSha with
    | none => []
    | some (s, node) => s :: trail cm rounds (firstParent node)

/-- The first parent stored under each key: all that the control flow of a
walk reads in the map. -/
def firstParents (cm : JSMap Commit) (s : String) : Option (Option String) :=
  (JSMap.get cm s).map firstParent

/-- The map after the rounds of one walk: the visit of the branch, applied
under each sha of the trail in turn. -/
def applyVisits (bc : Columns) (main : Option String) (b : BranchRef)
    (path : List String) (cm : JSMap Commit) : JSMap Commit :=
  path.foldl (fun m s => JSMap.update m s (visit bc main b)) cm

/-- What the walks leave on the node stored under `x` after the walk of
branch `b` over the map `cm0`: the visit of `b` when `x` is on its trail. -/
def stamp (bc : Columns) (main : Option String) (fuel : Nat) (cm0 : JSMap Commit)
    (x : String) (n : Commit) (b : BranchRef) : Commit :=
  if x ∈ trail cm0 fuel (some b.commit.sha) then visit bc main b n else n

/-- The node that `processCommitGraph` returns for the entry `(x, n)` of the
initial map `cm0`: the stamps of the ordered branches, then the fallback. -/
def layoutOf (main : Option String) (branches : List BranchRef) (fuel : Nat)
    (cm0 : JSMap Commit) (x : String) (n : Commit) : Commit :=
  fallback main
    ((orderedBranches main branches).foldl
      (stamp (branchColumns main branches) main fuel cm0 x) n)

/-- The commit records of the commit-list responses, in the order in which the
callbacks of `handleFetch` see them. -/
def received (responses : List (Option (List Commit))) : List Commit :=
  (responses.filterMap id).flatten

/-- One round of the callback loop: `if (!commitMap.has(commit.sha))
commitMap.set(commit.sha, commit)`, where `set` appends. -/
def addIfNew (m : JSMap Commit) (c : Commit) : JSMap Commit :=
  if JSMap.has m c.sha then m else m ++ [(c.sha, c)]

/-- The fields of a commit object that come from the fetched record. -/
def Commit.fetched (c : Commit) : String × List String × Int × String :=
  (c.sha, c.parents, c.date, c.url)

/-- Every entry of the map is stored under the sha of its commit. -/
def KeyedBySha (m : JSMap Commit) : Prop := ∀ e ∈ m, e.1 = e.2.sha

/-- A commit object as it comes out of a commit-list response: no layout
field is set yet. -/
def rawCommit (sha : String) (parents : List String) (date : Int) : Commit :=
  { sha := sha, parents := parents, date := date, url := sha, column := none,
    branchName := none, isMainBranch := false, timelineIndex := none }

/-- The branches of the worked example: `main` with head `A`, `feat` with
head `B`. -/
def exampleBranches : List BranchRef :=
  [{ name := "main", commit := { sha := "A" } }, { name := "feat", commit := { sha := "B" } }]

/-- The commits of the worked example: `A` and `B` have the parent `C`, which
has no parent. -/
def exampleCommits : List Commit :=
  [rawCommit "A" ["C"] 3, rawCommit "B" ["C"] 2, rawCommit "C" [] 1]

/-- The worked example with one more commit, `D`, that no branch reaches. -/
def orphanCommits : List Commit :=
  exampleCommits ++ [rawCommit "D" [] 0]

/-- A rank for the worked example: the root `C` is below every other sha. -/
def exampleRank (s : String) : Nat := if s = "C" then 0 else 1

/-- The commit-list responses of the worked example, in one order of
arrival: the list of `main`, then the list of `feat`; `C` is in both. -/
def exampleResponses : List (Option (List Commit)) :=
  [some [rawCommit "A" ["C"] 3, rawCommit "C" [] 1],
   some [rawCommit "B" ["C"] 2, rawCommit "C" [] 1]]

/-- The lane that the specification gives to the `k`-th non-trunk branch,
counted from 1: magnitude `k / 2` rounded up, positive when `k` is odd and
negative when `k` is even (`+1, -1, +2, -2, ...`). -/
def specLaneOf (k : Nat) : Int :=
  if k % 2 = 1 then (((k + 1) / 2 : Nat) : Int) else -(((k + 1) / 2 : Nat) : Int)

/-- A branch list with the trunk and three more branches. -/
def laneBranches : List BranchRef :=
  [{ name := "main", commit := { sha := "A" } }, { name := "f1", commit := { sha := "B" } },
   { name := "f2", commit := { sha := "C" } }, { name := "f3", commit := { sha := "D" } }]

/-- A branch list in which the first non-trunk branch is named `__proto__`. -/
def protoBranches : List BranchRef :=
  [{ name := "main", commit := { sha := "A" } },
   { name := "__proto__", commit := { sha := "B" } },
   { name := "f2", commit := { sha := "C" } }]

/-- A commit object without its timeline index. -/
def Commit.unindexed (c : Commit) : Commit := { c with timelineIndex := none }

/-- A component state that shows the worked example, with `A` selected. -/
def shownState : AppState :=
  { commits := exampleCommits, allFetchedCommits := exampleCommits, isLoading := false,
    isAnimating := false, selectedCommit := some (rawCommit "A" ["C"] 3), alerts := [],
    layoutCalls := 1 }

/-- A network whose branch-list response is not `ok`. -/
def failingNetwork : Network :=
  { branches := BranchesResponse.notOk, commitLists := [], detail := fun _ => none }

/-- The session after `i` reveals of a playback of the commits of `app`. -/
def revealing (app : AppState) (i : Nat) : Session :=
  { app := { app with commits := app.allFetchedCommits.take i }, timer := some i }

/-- The session after the completion of a playback of the commits of `app`. -/
def finished (app : AppState) : Session :=
  { app := { app with commits := app.allFetchedCommits, isAnimating := false }, timer := none }

/-- The list `laneBranches` with `f1` and `f2` exchanged: the trunk is the
same. -/
def swappedLaneBranches : List BranchRef :=
  [{ name := "main", commit := { sha := "A" } }, { name := "f2", commit := { sha := "C" } },
   { name := "f1", commit := { sha := "B" } }, { name := "f3", commit := { sha := "D" } }]

/-- The list `exampleBranches` with the trunk moved to the end. -/
def movedTrunkBranches : List BranchRef :=
  [{ name := "feat", commit := { sha := "B" } }, { name := "main", commit := { sha := "A" } }]

/-- The node with sha `x` in a list of returned nodes. -/
def nodeOf (out : List Commit) (x : String) : Option Commit :=
  out.find? (fun c => c.sha == x)

/-- The component state before the first fetch. -/
def idleState : AppState :=
  { commits := [], allFetchedCommits := [], isLoading := false, isAnimating := false,
    selectedCommit := none, alerts := [], layoutCalls := 0 }

/-- Detail responses for two commits, `A` and `B`, with the same date. -/
def tieDetail (url : String) : Option Commit :=
  if url = "A" then some (rawCommit "A" [] 5)
  else if url = "B" then some (rawCommit "B" [] 5)
  else none

/-- A run in which the commit list of `main` arrives before that of `feat`;
the commits `A` and `B` have the same date. -/
def tieNetwork : Network :=
  { branches := BranchesResponse.ok exampleBranches
    commitLists := [some [rawCommit "A" [] 5], some [rawCommit "B" [] 5]]
    detail := tieDetail }

/-- The run `tieNetwork` with the two commit lists arriving in the other
order. -/
def tieNetworkSwapped : Network :=
  { branches := BranchesResponse.ok exampleBranches
    commitLists := [some [rawCommit "B" [] 5], some [rawCommit "A" [] 5]]
    detail := tieDetail }

/-- Detail responses for the commits of the worked example. -/
def exampleDetail (url : String) : Option Commit :=
  exampleCommits.find? (fun c => c.url == url)

/-- A run on the worked example in which the commit list of `main` arrives
first. -/
def exampleNetwork : Network :=
  { branches := BranchesResponse.ok exampleBranches
    commitLists := exampleResponses
    detail := exampleDetail }

/-- The run `exampleNetwork` with the two commit lists arriving in the other
order. -/
def exampleNetworkSwapped : Network :=
  { branches := BranchesResponse.ok exampleBranches
    commitLists := exampleResponses.reverse
    detail := exampleDetail }

/-- A first-parent link of the map: the walk loop goes from `s` to `p`. -/
def Link (cm : JSMap Commit) (s p : String) : Prop :=
  ∃ node, current cm (some s) = some (s, node) ∧ firstParent node = some p ∧
    (current cm (some p)).isSome = true

/-- The first-parent links of the map form no cycle. -/
def Acyclic (cm : JSMap Commit) : Prop :=
  ∀ s, ¬ Relation.TransGen (Link cm) s s

/-- A checkable certificate of acyclicity: along every first-parent link
inside the map, `rank` decreases. -/
def rankedBy (rank : String → Nat) (cm : JSMap Commit) : Bool :=
  cm.all (fun e =>
    match firstParent e.2 with
    | none => true
    | some p => !JSMap.has cm p || decide (rank p < rank e.1))

/-- The lane that the lane loop gives to the `k`-th non-trunk branch, counted
from 1: `k` when `k` is odd, `-k` when `k` is even. -/
def laneOf (k : Nat) : Int := if k % 2 = 1 then (k : Int) else -(k : Int)

end Reposcape

namespace Reposcape

/-! ## Lanes -/

theorem foldl_laneStep_nonTrunk (main : Option String) (bs : List BranchRef) (st : LaneState) :
    bs.foldl (laneStep main) st = (nonTrunk main bs).foldl (laneStep main) st := by
  induction bs generalizing st with
  | nil => rfl
  | cons b bs ih =>
    by_cases hb : some b.name = main
    · have h1 : laneStep main st b = st := by simp [laneStep, hb]
      have h2 : nonTrunk main (b :: bs) = nonTrunk main bs := by simp [nonTrunk, hb]
      rw [List.foldl_cons, h1, h2, ih]
    · have h2 : nonTrunk main (b :: bs) = b :: nonTrunk main bs := by simp [nonTrunk, hb]
      rw [List.foldl_cons, h2, List.foldl_cons, ih]

theorem Columns.set_other (bc : Columns) (k x : String) (v : Int) (h : x ≠ k) :
    Columns.set bc k v x = bc x := by
  unfold Columns.set
  by_cases hk : k = "__proto__"
  · rw [if_pos hk]
  · rw [if_neg hk]
    simp [h]

theorem Columns.set_same (bc : Columns) (k : String) (v : Int) (h : k ≠ "__proto__") :
    Columns.set bc k v k = some (LaneValue.number v) := by
  unfold Columns.set
  rw [if_neg h]
  simp

theorem Columns.set_proto (bc : Columns) (k : String) (v : Int) :
    Columns.set bc k v "__proto__" = bc "__proto__" := by
  unfold Columns.set
  by_cases hk : k = "__proto__"
  · rw [if_pos hk]
  · rw [if_neg hk]
    have : ¬ "__proto__" = k := fun h => hk h.symm
    simp [this]

theorem foldl_laneStep_untouched (main : Option String) (x : String) (bs : List BranchRef)
    (st : LaneState) (hx : ∀ b ∈ bs, some b.name ≠ main → b.name ≠ x) :
    (bs.foldl (laneStep main) st).branchColumns x = st.branchColumns x := by
  induction bs generalizing st with
  | nil => rfl
  | cons b bs ih =>
    rw [List.foldl_cons, ih _ (fun c hc => hx c (List.mem_cons_of_mem _ hc))]
    by_cases hb : some b.name = main
    · simp [laneStep, hb]
    · have hne : b.name ≠ x := hx b (List.mem_cons_self _ _) hb
      have hne2 : x ≠ b.name := fun h => hne h.symm
      simp only [laneStep, hb, ne_eq, not_false_eq_true, ↓reduceIte]
      exact Columns.set_other _ _ _ _ hne2

theorem foldl_laneStep_proto (main : Option String) (bs : List BranchRef) (st : LaneState) :
    (bs.foldl (laneStep main) st).branchColumns "__proto__" = st.branchColumns "__proto__" := by
  induction bs generalizing st with
  | nil => rfl
  | cons b bs ih =>
    rw [List.foldl_cons, ih]
    by_cases hb : some b.name = main
    · simp [laneStep, hb]
    · simp only [laneStep, hb, ne_eq, not_false_eq_true, ↓reduceIte]
      exact Columns.set_proto _ _ _

theorem foldl_laneStep_at (main : Option String) (bs : List BranchRef) (st : LaneState)
    (hbs : ∀ b ∈ bs, some b.name ≠ main) (hnd : (bs.map (fun b => b.name)).Nodup)
    (k : Nat) (hk : k < bs.length) (hproto : (bs[k]).name ≠ "__proto__") :
    (bs.foldl (laneStep main) st).branchColumns (bs[k]).name
      = some (LaneValue.number ((st.columnCounter + k) * (st.sign * (-1) ^ k))) := by
  induction bs generalizing st k with
  | nil => simp at hk
  | cons b bs ih =>
    have hb : some b.name ≠ main := hbs b (List.mem_cons_self _ _)
    rw [List.map_cons, List.nodup_cons] at hnd
    cases k with
    | zero =>
      rw [List.foldl_cons, foldl_laneStep_untouched]
      · simp only [laneStep, hb, ne_eq, not_false_eq_true, ↓reduceIte, List.getElem_cons_zero]
        rw [Columns.set_same _ _ _ (by simpa using hproto)]
        simp
      · intro c hc _ hcx
        exact hnd.1 (List.mem_map.mpr ⟨c, hc, hcx⟩)
    | succ k =>
      have hk2 : k < bs.length := by simpa using hk
      rw [List.foldl_cons, List.getElem_cons_succ,
        ih _ (fun c hc => hbs c (List.mem_cons_of_mem _ hc)) hnd.2 k hk2
          (by simpa using hproto)]
      simp only [laneStep, hb, ne_eq, not_false_eq_true, ↓reduceIte]
      congr 2
      push_cast
      ring

theorem laneOf_eq (k : Nat) : ((1 : Int) + k) * (1 * (-1) ^ k) = laneOf (k + 1) := by
  unfold laneOf
  rcases Nat.even_or_odd k with h | h
  · have h1 : (k + 1) % 2 = 1 := by obtain ⟨r, hr⟩ := h; omega
    rw [if_pos h1, h.neg_one_pow]
    push_cast
    ring
  · have h1 : ¬ (k + 1) % 2 = 1 := by obtain ⟨r, hr⟩ := h; omega
    rw [if_neg h1, h.neg_one_pow]
    push_cast
    ring

theorem nonTrunk_names_nodup (main : Option String) (branches : List BranchRef)
    (hnd : (branches.map (fun b => b.name)).Nodup) :
    ((nonTrunk main branches).map (fun b => b.name)).Nodup :=
  (List.Sublist.map _ (List.filter_sublist branches)).nodup hnd

theorem mem_nonTrunk {main : Option String} {branches : List BranchRef} {b : BranchRef} :
    b ∈ nonTrunk main branches ↔ b ∈ branches ∧ some b.name ≠ main := by
  simp [nonTrunk]

/-- The lane of each non-trunk branch, not named `__proto__`, of a list with
distinct names. -/
theorem branchColumns_nonTrunk (branches : List BranchRef)
    (hnd : (branches.map (fun b => b.name)).Nodup)
    (k : Nat) (hk : k < (nonTrunk (mainBranchName branches) branches).length)
    (hproto : ((nonTrunk (mainBranchName branches) branches)[k]).name ≠ "__proto__") :
    branchColumns (mainBranchName branches) branches
        ((nonTrunk (mainBranchName branches) branches)[k]).name
      = some (LaneValue.number (laneOf (k + 1))) := by
  unfold branchColumns
  rw [foldl_laneStep_nonTrunk,
    foldl_laneStep_at _ _ _ (fun b hb => (mem_nonTrunk.mp hb).2)
      (nonTrunk_names_nodup _ _ hnd) k hk hproto]
  exact congrArg (fun n => some (LaneValue.number n)) (laneOf_eq k)

/-- The lane of the trunk is 0 when its name is truthy and not `__proto__`. -/
theorem branchColumns_trunk (branches : List BranchRef) (m : String)
    (hm : mainBranchName branches = some m) (ht : truthy m = true) (hproto : m ≠ "__proto__") :
    branchColumns (mainBranchName branches) branches m = some (LaneValue.number 0) := by
  unfold branchColumns
  rw [foldl_laneStep_untouched]
  · simp only [laneInit, hm, ht, if_true]
    exact Columns.set_same _ _ _ hproto
  · intro b _ hb hbm
    exact hb (by rw [hm, hbm])

/-- The read under `__proto__` after the lane loop: `Object.prototype`. -/
theorem branchColumns_proto (main : Option String) (branches : List BranchRef) :
    branchColumns main branches "__proto__" = some (LaneValue.inherited "__proto__") := by
  unfold branchColumns
  rw [foldl_laneStep_proto]
  have he : emptyObject "__proto__" = some (LaneValue.inherited "__proto__") := by decide
  unfold laneInit
  cases main with
  | none => exact he
  | some m =>
    simp only
    by_cases ht : truthy m = true
    · rw [if_pos ht, Columns.set_proto]
      exact he
    · rw [if_neg ht]
      exact he

theorem foldl_laneStep_isSome (main : Option String) (bs : List BranchRef) (st : LaneState)
    (b : BranchRef) (hall : ∀ c ∈ bs, some c.name ≠ main) (hb : b ∈ bs)
    (hproto : b.name ≠ "__proto__") :
    ∃ lane, (bs.foldl (laneStep main) st).branchColumns b.name = some lane := by
  induction bs using List.reverseRecOn with
  | nil => simp at hb
  | append_singleton bs c ih =>
    rw [List.foldl_append, List.foldl_cons, List.foldl_nil]
    have hc : some c.name ≠ main := hall c (by simp)
    by_cases hbc : b.name = c.name
    · refine ⟨LaneValue.number
        ((bs.foldl (laneStep main) st).columnCounter * (bs.foldl (laneStep main) st).sign), ?_⟩
      simp only [laneStep, hc, ne_eq, not_false_eq_true, ↓reduceIte]
      rw [hbc]
      exact Columns.set_same _ _ _ (by rw [← hbc]; exact hproto)
    · have hb2 : b ∈ bs := by
        rcases List.mem_append.mp hb with h | h
        · exact h
        · rw [List.mem_singleton] at h
          exact absurd (congrArg BranchRef.name h) hbc
      obtain ⟨lane, hl⟩ := ih (fun d hd => hall d (List.mem_append_left _ hd)) hb2
      refine ⟨lane, ?_⟩
      simp only [laneStep, hc, ne_eq, not_false_eq_true, ↓reduceIte]
      rw [Columns.set_other _ _ _ _ hbc]
      exact hl

/-- Every non-trunk branch reads a value, never `undefined`, from
`branchColumns`. -/
theorem branchColumns_isSome (main : Option String) (branches : List BranchRef) (b : BranchRef)
    (hb : b ∈ nonTrunk main branches) :
    ∃ lane, branchColumns main branches b.name = some lane := by
  by_cases hproto : b.name = "__proto__"
  · rw [hproto]
    exact ⟨_, branchColumns_proto main branches⟩
  · unfold branchColumns
    rw [foldl_laneStep_nonTrunk]
    exact foldl_laneStep_isSome main _ _ b (fun c hc => (mem_nonTrunk.mp hc).2) hb hproto

end Reposcape

namespace Reposcape

/-! ## The map operations -/

namespace JSMap

variable {α : Type}

theorem get_nil (k : String) : get ([] : JSMap α) k = none := rfl

theorem get_cons (e : String × α) (m : JSMap α) (k : String) :
    get (e :: m) k = if e.1 = k then some e.2 else get m k := by
  unfold get
  by_cases h : e.1 = k
  · simp [List.find?_cons, h]
  · simp [List.find?_cons, h]

theorem has_eq_isSome (m : JSMap α) (k : String) : has m k = (get m k).isSome := by
  induction m with
  | nil => rfl
  | cons e m ih =>
    rw [get_cons]
    by_cases h : e.1 = k
    · simp [has, h]
    · have : has (e :: m) k = has m k := by simp [has, h]
      rw [this, ih, if_neg h]

theorem has_iff_mem_keys (m : JSMap α) (k : String) :
    has m k = true ↔ k ∈ m.map (fun e => e.1) := by
  unfold has
  rw [List.any_eq_true, List.mem_map]
  constructor
  · rintro ⟨e, he, hk⟩
    exact ⟨e, he, by simpa using hk⟩
  · rintro ⟨e, he, hk⟩
    exact ⟨e, he, by simpa using hk⟩

theorem get_update (m : JSMap α) (k x : String) (f : α → α) :
    get (update m k f) x = if x = k then (get m x).map f else get m x := by
  induction m with
  | nil => simp [update, get]
  | cons e m ih =>
    have hu : update (e :: m) k f = (if e.1 == k then (e.1, f e.2) else e) :: update m k f := rfl
    rw [hu, get_cons, get_cons, ih]
    by_cases hxk : x = k
    · subst hxk
      by_cases hex : e.1 = x
      · simp [hex]
      · simp [hex]
    · by_cases hex : e.1 = x
      · have hek : ¬ e.1 = k := fun h => hxk (hex.symm.trans h)
        simp [hek, hex, hxk]
      · by_cases hek : e.1 = k
        · have hkx : ¬ k = x := fun h => hxk h.symm
          simp [hek, hkx, hxk]
        · simp [hek, hex, hxk]

theorem get_forEach (m : JSMap α) (x : String) (f : α → α) :
    get (forEach m f) x = (get m x).map f := by
  induction m with
  | nil => rfl
  | cons e m ih =>
    have hu : forEach (e :: m) f = (e.1, f e.2) :: forEach m f := rfl
    rw [hu, get_cons, get_cons, ih]
    by_cases hex : e.1 = x
    · simp [hex]
    · simp [hex]

theorem keys_update (m : JSMap α) (k : String) (f : α → α) :
    (update m k f).map (fun e => e.1) = m.map (fun e => e.1) := by
  unfold update
  rw [List.map_map]
  apply List.map_congr_left
  intro e _
  by_cases h : e.1 = k
  · simp [h]
  · simp [h]

theorem keys_forEach (m : JSMap α) (f : α → α) :
    (forEach m f).map (fun e => e.1) = m.map (fun e => e.1) := by
  unfold forEach
  rw [List.map_map]
  rfl

theorem length_update (m : JSMap α) (k : String) (f : α → α) :
    (update m k f).length = m.length := by
  simp [update]

theorem get_some_mem (m : JSMap α) (k : String) (v : α) (h : get m k = some v) :
    (k, v) ∈ m := by
  induction m with
  | nil => simp [get] at h
  | cons e m ih =>
    rw [get_cons] at h
    by_cases hek : e.1 = k
    · rw [if_pos hek] at h
      have : e = (k, v) := by
        cases e
        simp only [Option.some.injEq] at h
        simp only at hek
        rw [hek, h]
      rw [this]
      exact List.mem_cons_self _ _
    · rw [if_neg hek] at h
      exact List.mem_cons_of_mem _ (ih h)

end JSMap

/-! ## The walk loop and its trail -/

theorem visit_parents (bc : Columns) (main : Option String) (b : BranchRef) (n : Commit) :
    (visit bc main b n).parents = n.parents := by
  unfold visit
  by_cases h1 : n.column = none <;> by_cases h2 : some b.name = main <;> simp [h1, h2]

theorem visit_sha (bc : Columns) (main : Option String) (b : BranchRef) (n : Commit) :
    (visit bc main b n).sha = n.sha := by
  unfold visit
  by_cases h1 : n.column = none <;> by_cases h2 : some b.name = main <;> simp [h1, h2]

theorem current_map (cm : JSMap Commit) (cur : Option String) :
    (current cm cur).map (fun r => (r.1, firstParent r.2))
      = match cur with
        | none => none
        | some s => if truthy s then (firstParents cm s).map (fun fp => (s, fp)) else none := by
  cases cur with
  | none => rfl
  | some s =>
    simp only [current, firstParents]
    by_cases h : truthy s = true
    · simp only [h, if_true, Option.map_map]
      rfl
    · simp [h]

theorem current_congr {cm cm2 : JSMap Commit} (h : firstParents cm = firstParents cm2)
    (cur : Option String) :
    (current cm cur).map (fun r => (r.1, firstParent r.2))
      = (current cm2 cur).map (fun r => (r.1, firstParent r.2)) := by
  rw [current_map, current_map, h]

theorem current_fst {cm : JSMap Commit} {cur : Option String} {s : String} {node : Commit}
    (h : current cm cur = some (s, node)) :
    cur = some s ∧ truthy s = true ∧ JSMap.get cm s = some node := by
  cases cur with
  | none => simp [current] at h
  | some t =>
    simp only [current] at h
    by_cases ht : truthy t = true
    · rw [if_pos ht] at h
      cases hg : JSMap.get cm t with
      | none => rw [hg] at h; simp at h
      | some n =>
        rw [hg] at h
        simp only [Option.map_some', Option.some.injEq, Prod.mk.injEq] at h
        obtain ⟨h1, h2⟩ := h
        subst h1 h2
        exact ⟨rfl, ht, hg⟩
    · rw [if_neg ht] at h
      simp at h

theorem chain_congr {cm cm2 : JSMap Commit} (h : firstParents cm = firstParents cm2) :
    ∀ (fuel : Nat) (cur : Option String), chain cm fuel cur = chain cm2 fuel cur := by
  intro fuel
  induction fuel with
  | zero =>
    intro cur
    have hc := current_congr h cur
    unfold chain
    cases h1 : current cm cur <;> cases h2 : current cm2 cur <;> simp [h1, h2] at hc ⊢
  | succ fuel ih =>
    intro cur
    have hc := current_congr h cur
    unfold chain
    cases h1 : current cm cur with
    | none =>
      cases h2 : current cm2 cur with
      | none => rfl
      | some r => simp [h1, h2] at hc
    | some r =>
      cases h2 : current cm2 cur with
      | none => simp [h1, h2] at hc
      | some r2 =>
        simp only [h1, h2, Option.map_some', Option.some.injEq, Prod.mk.injEq] at hc
        obtain ⟨hs, hp⟩ := hc
        simp only [hs, hp, ih]

theorem firstParents_update (bc : Columns) (main : Option String) (b : BranchRef)
    (cm : JSMap Commit) (k : String) :
    firstParents (JSMap.update cm k (visit bc main b)) = firstParents cm := by
  funext x
  unfold firstParents
  rw [JSMap.get_update]
  by_cases hx : x = k
  · rw [if_pos hx, Option.map_map]
    congr 1
    funext n
    simp [firstParent, visit_parents]
  · rw [if_neg hx]

theorem walk_eq_chain (bc : Columns) (main : Option String) (b : BranchRef) :
    ∀ (fuel : Nat) (cur : Option String) (cm : JSMap Commit),
      walk bc main b fuel cur cm = (chain cm fuel cur).map (fun p => applyVisits bc main b p cm) := by
  intro fuel
  induction fuel with
  | zero =>
    intro cur cm
    unfold walk chain
    cases current cm cur <;> rfl
  | succ fuel ih =>
    intro cur cm
    unfold walk chain
    cases h1 : current cm cur with
    | none => rfl
    | some r =>
      obtain ⟨s, node⟩ := r
      simp only
      rw [ih, chain_congr (firstParents_update bc main b cm s), Option.map_map]
      rfl

end Reposcape

namespace Reposcape

/-! ## Termination of the walks -/

theorem chain_eq_trail (cm : JSMap Commit) :
    ∀ (fuel : Nat) (cur : Option String) (p : List String),
      chain cm fuel cur = some p → p = trail cm fuel cur := by
  intro fuel
  induction fuel with
  | zero =>
    intro cur p h
    unfold chain at h
    cases hc : current cm cur with
    | none => rw [hc] at h; simpa [trail] using h.symm
    | some r => rw [hc] at h; simp at h
  | succ fuel ih =>
    intro cur p h
    unfold chain at h
    unfold trail
    cases hc : current cm cur with
    | none => rw [hc] at h; simpa using h.symm
    | some r =>
      obtain ⟨s, node⟩ := r
      rw [hc] at h
      simp only at h ⊢
      cases hr : chain cm fuel (firstParent node) with
      | none => rw [hr] at h; simp at h
      | some rest =>
        rw [hr] at h
        simp only [Option.map_some', Option.some.injEq] at h
        rw [← h, ih _ _ hr]

theorem chain_none_length (cm : JSMap Commit) :
    ∀ (fuel : Nat) (cur : Option String),
      chain cm fuel cur = none → (trail cm (fuel + 1) cur).length = fuel + 1 := by
  intro fuel
  induction fuel with
  | zero =>
    intro cur h
    unfold chain at h
    unfold trail
    cases hc : current cm cur with
    | none => rw [hc] at h; simp at h
    | some r => simp [trail]
  | succ fuel ih =>
    intro cur h
    unfold chain at h
    unfold trail
    cases hc : current cm cur with
    | none => rw [hc] at h; simp at h
    | some r =>
      obtain ⟨s, node⟩ := r
      rw [hc] at h
      simp only [Option.map_eq_none'] at h
      simp only [List.length_cons, ih _ h]

theorem trail_head (cm : JSMap Commit) (n : Nat) (cur : Option String) (x : String)
    (hx : (trail cm n cur).head? = some x) :
    cur = some x ∧ (current cm cur).isSome = true := by
  cases n with
  | zero => simp [trail] at hx
  | succ n =>
    unfold trail at hx
    cases hc : current cm cur with
    | none => rw [hc] at hx; simp at hx
    | some r =>
      obtain ⟨s, node⟩ := r
      rw [hc] at hx
      simp only [List.head?_cons, Option.some.injEq] at hx
      subst hx
      exact ⟨(current_fst hc).1, rfl⟩

theorem trail_chain (cm : JSMap Commit) :
    ∀ (n : Nat) (cur : Option String), List.Chain' (Link cm) (trail cm n cur) := by
  intro n
  induction n with
  | zero => intro cur; simp [trail]
  | succ n ih =>
    intro cur
    unfold trail
    cases hc : current cm cur with
    | none => simp
    | some r =>
      obtain ⟨s, node⟩ := r
      simp only
      rw [List.chain'_cons']
      refine ⟨?_, ih _⟩
      intro y hy
      have hy2 := trail_head cm n (firstParent node) y (by simpa using hy)
      have hcur := (current_fst hc).1
      refine ⟨node, ?_, hy2.1, ?_⟩
      · rw [← hcur]; exact hc
      · rw [← hy2.1]; exact hy2.2

theorem trail_mem_keys (cm : JSMap Commit) :
    ∀ (n : Nat) (cur : Option String) (x : String),
      x ∈ trail cm n cur → x ∈ cm.map (fun e => e.1) := by
  intro n
  induction n with
  | zero => intro cur x hx; simp [trail] at hx
  | succ n ih =>
    intro cur x hx
    unfold trail at hx
    cases hc : current cm cur with
    | none => rw [hc] at hx; simp at hx
    | some r =>
      obtain ⟨s, node⟩ := r
      rw [hc] at hx
      rcases List.mem_cons.mp hx with h | h
      · subst h
        have hg := (current_fst hc).2.2
        rw [← JSMap.has_iff_mem_keys, JSMap.has_eq_isSome, hg]
        rfl
      · exact ih _ _ h

theorem transGen_of_chain {α : Type} {r : α → α → Prop} {a : α} {l : List α}
    (h : List.Chain r a l) : ∀ b ∈ l, Relation.TransGen r a b := by
  induction h with
  | nil => intro b hb; simp at hb
  | cons hr _ ih =>
    intro b hb
    rcases List.mem_cons.mp hb with h | h
    · subst h
      exact Relation.TransGen.single hr
    · exact Relation.TransGen.head hr (ih b h)

theorem nodup_of_chain_acyclic {α : Type} {r : α → α → Prop}
    (hr : ∀ x, ¬ Relation.TransGen r x x) :
    ∀ (l : List α), List.Chain' r l → l.Nodup := by
  intro l
  induction l with
  | nil => intro _; exact List.nodup_nil
  | cons a l ih =>
    intro h
    rw [List.nodup_cons]
    refine ⟨fun ha => hr a (transGen_of_chain h a ha), ih h.tail⟩

theorem trail_nodup (cm : JSMap Commit) (hac : Acyclic cm) (n : Nat) (cur : Option String) :
    (trail cm n cur).Nodup :=
  nodup_of_chain_acyclic hac _ (trail_chain cm n cur)

theorem trail_length_le (cm : JSMap Commit) (hac : Acyclic cm) (n : Nat) (cur : Option String) :
    (trail cm n cur).length ≤ cm.length := by
  have h := ((trail_nodup cm hac n cur).subperm (fun x hx => trail_mem_keys cm n cur x hx)).length_le
  simpa using h

/-- On a map without first-parent cycles the walk loop ends within as many
rounds as the map has entries. -/
theorem chain_terminates (cm : JSMap Commit) (hac : Acyclic cm) (fuel : Nat)
    (hfuel : cm.length ≤ fuel) (cur : Option String) :
    chain cm fuel cur = some (trail cm fuel cur) := by
  cases h : chain cm fuel cur with
  | some p => rw [chain_eq_trail cm fuel cur p h]
  | none =>
    have h1 := chain_none_length cm fuel cur h
    have h2 := trail_length_le cm hac (fuel + 1) cur
    omega

/-- A rank that decreases along every link excludes cycles. -/
theorem acyclic_of_rank (cm : JSMap Commit) (rank : String → Nat)
    (h : ∀ s p, Link cm s p → rank p < rank s) : Acyclic cm := by
  have key : ∀ s t, Relation.TransGen (Link cm) s t → rank t < rank s := by
    intro s t hst
    induction hst with
    | single hl => exact h _ _ hl
    | tail _ hl ih => exact lt_trans (h _ _ hl) ih
  intro s hs
  exact lt_irrefl _ (key s s hs)

end Reposcape

namespace Reposcape

theorem current_isSome_has {cm : JSMap Commit} {p : String}
    (h : (current cm (some p)).isSome = true) : JSMap.has cm p = true := by
  cases hc : current cm (some p) with
  | none => rw [hc] at h; simp at h
  | some r =>
    obtain ⟨s, node⟩ := r
    have h2 := current_fst hc
    have hs : p = s := by simpa using h2.1
    rw [JSMap.has_eq_isSome, hs, h2.2.2]
    rfl

/-- The certificate `rankedBy` excludes cycles. -/
theorem acyclic_of_rankedBy (cm : JSMap Commit) (rank : String → Nat)
    (h : rankedBy rank cm = true) : Acyclic cm := by
  apply acyclic_of_rank cm rank
  rintro s p ⟨node, hcur, hfp, hp⟩
  have hmem : (s, node) ∈ cm := JSMap.get_some_mem cm s node (current_fst hcur).2.2
  unfold rankedBy at h
  rw [List.all_eq_true] at h
  have he := h (s, node) hmem
  simp only [hfp, current_isSome_has hp, Bool.not_true, Bool.false_or, decide_eq_true_eq] at he
  exact he

/-! ## The result of `processCommitGraph`, node by node -/

theorem visit_idem (bc : Columns) (main : Option String) (b : BranchRef) (n : Commit) :
    visit bc main b (visit bc main b n) = visit bc main b n := by
  unfold visit
  by_cases h1 : n.column = none <;> by_cases h2 : some b.name = main <;>
    cases h3 : bc b.name <;> simp [h1, h2, h3]

theorem applyVisits_eq_map (bc : Columns) (main : Option String) (b : BranchRef) :
    ∀ (path : List String) (cm : JSMap Commit),
      applyVisits bc main b path cm
        = cm.map (fun e => (e.1, if e.1 ∈ path then visit bc main b e.2 else e.2)) := by
  intro path
  induction path with
  | nil =>
    intro cm
    simp [applyVisits]
  | cons s rest ih =>
    intro cm
    have hstep : applyVisits bc main b (s :: rest) cm
        = applyVisits bc main b rest (JSMap.update cm s (visit bc main b)) := rfl
    rw [hstep, ih, JSMap.update, List.map_map]
    apply List.map_congr_left
    intro e _
    by_cases hes : e.1 = s
    · by_cases her : e.1 ∈ rest
      · simp [hes, her, visit_idem]
      · have hsr : s ∉ rest := fun h => her (hes ▸ h)
        simp [hes, hsr]
    · by_cases her : e.1 ∈ rest
      · simp [hes, her]
      · simp [hes, her]

theorem firstParents_applyVisits (bc : Columns) (main : Option String) (b : BranchRef) :
    ∀ (path : List String) (cm : JSMap Commit),
      firstParents (applyVisits bc main b path cm) = firstParents cm := by
  intro path
  induction path with
  | nil => intro cm; rfl
  | cons s rest ih =>
    intro cm
    have hstep : applyVisits bc main b (s :: rest) cm
        = applyVisits bc main b rest (JSMap.update cm s (visit bc main b)) := rfl
    rw [hstep, ih, firstParents_update]

theorem trail_congr {cm cm2 : JSMap Commit} (h : firstParents cm = firstParents cm2) :
    ∀ (n : Nat) (cur : Option String), trail cm n cur = trail cm2 n cur := by
  intro n
  induction n with
  | zero => intro cur; rfl
  | succ n ih =>
    intro cur
    have hc := current_congr h cur
    unfold trail
    cases h1 : current cm cur with
    | none =>
      cases h2 : current cm2 cur with
      | none => rfl
      | some r => simp [h1, h2] at hc
    | some r =>
      cases h2 : current cm2 cur with
      | none => simp [h1, h2] at hc
      | some r2 =>
        simp only [h1, h2, Option.map_some', Option.some.injEq, Prod.mk.injEq] at hc
        obtain ⟨hs, hp⟩ := hc
        simp only [hs, hp, ih]

/-- The walks of a list of branches, when each of them ends within the fuel:
every entry of the map gets the stamps of the branches in turn. -/
theorem walkAll_eq (bc : Columns) (main : Option String) (fuel : Nat) (cm0 : JSMap Commit) :
    ∀ (bs : List BranchRef) (cm : JSMap Commit),
      firstParents cm = firstParents cm0 →
      (∀ b ∈ bs, chain cm0 fuel (some b.commit.sha) = some (trail cm0 fuel (some b.commit.sha))) →
      walkAll bc main fuel bs cm
        = some (cm.map (fun e => (e.1, bs.foldl (stamp bc main fuel cm0 e.1) e.2))) := by
  intro bs
  induction bs with
  | nil =>
    intro cm _ _
    simp [walkAll]
  | cons b bs ih =>
    intro cm hfp hch
    unfold walkAll
    rw [walk_eq_chain, chain_congr hfp, hch b (List.mem_cons_self _ _)]
    simp only [Option.map_some']
    rw [ih _ ((firstParents_applyVisits bc main b _ cm).trans hfp)
      (fun c hc => hch c (List.mem_cons_of_mem _ hc)), applyVisits_eq_map, List.map_map]
    rfl

/-- A walk that runs out of fuel makes `walkAll` run out of fuel. -/
theorem walkAll_none (bc : Columns) (main : Option String) (fuel : Nat) (cm0 : JSMap Commit) :
    ∀ (bs : List BranchRef) (cm : JSMap Commit),
      firstParents cm = firstParents cm0 →
      (∃ b ∈ bs, chain cm0 fuel (some b.commit.sha) = none) →
      walkAll bc main fuel bs cm = none := by
  intro bs
  induction bs with
  | nil =>
    intro cm _ h
    obtain ⟨b, hb, _⟩ := h
    simp at hb
  | cons b bs ih =>
    intro cm hfp h
    unfold walkAll
    rw [walk_eq_chain, chain_congr hfp]
    cases hc : chain cm0 fuel (some b.commit.sha) with
    | none => rfl
    | some p =>
      simp only [Option.map_some']
      obtain ⟨c, hc1, hc2⟩ := h
      rcases List.mem_cons.mp hc1 with h1 | h1
      · subst h1
        rw [hc] at hc2
        simp at hc2
      · exact ih _ ((firstParents_applyVisits bc main b _ cm).trans hfp) ⟨c, h1, hc2⟩

/-- The result of `processCommitGraph` when every walk ends within the fuel:
the entries of the initial map, each with its layout. -/
theorem processCommitGraph_eq (fuel : Nat) (allCommits : List Commit) (branches : List BranchRef)
    (hch : ∀ b ∈ orderedBranches (mainBranchName branches) branches,
      chain (initialMap allCommits) fuel (some b.commit.sha)
        = some (trail (initialMap allCommits) fuel (some b.commit.sha))) :
    processCommitGraph fuel allCommits branches
      = some ((initialMap allCommits).map
          (fun e => layoutOf (mainBranchName branches) branches fuel (initialMap allCommits) e.1 e.2)) := by
  unfold processCommitGraph
  simp only
  have h := walkAll_eq (branchColumns (mainBranchName branches) branches) (mainBranchName branches)
    fuel (initialMap allCommits) _ (initialMap allCommits) rfl hch
  unfold initialMap at h ⊢
  rw [h]
  simp only [Option.map_some', JSMap.values, JSMap.forEach, List.map_map, layoutOf, initialMap]
  rfl

end Reposcape

namespace Reposcape

/-! ## The maps built by `new Map` and by the fetch callbacks -/

namespace JSMap

variable {α : Type}

theorem set_of_not_has (m : JSMap α) (k : String) (v : α) (h : has m k = false) :
    set m k v = m ++ [(k, v)] := by
  simp [set, h]

theorem keys_set_of_has (m : JSMap α) (k : String) (v : α) (h : has m k = true) :
    (set m k v).map (fun e => e.1) = m.map (fun e => e.1) := by
  simp only [set, h, if_true, List.map_map]
  apply List.map_congr_left
  intro e _
  by_cases hk : e.1 = k
  · simp [hk]
  · simp [hk]

theorem keys_nodup_set (m : JSMap α) (k : String) (v : α)
    (h : (m.map (fun e => e.1)).Nodup) : ((set m k v).map (fun e => e.1)).Nodup := by
  by_cases hk : has m k = true
  · rw [keys_set_of_has m k v hk]; exact h
  · have hk2 : has m k = false := by simpa using hk
    rw [set_of_not_has m k v hk2, List.map_append]
    refine List.Nodup.append h (by simp) ?_
    intro x hx hx2
    have hxk : x = k := by simpa using hx2
    subst hxk
    exact hk ((has_iff_mem_keys m x).mpr hx)

theorem length_set_le (m : JSMap α) (k : String) (v : α) :
    (set m k v).length ≤ m.length + 1 := by
  by_cases hk : has m k = true
  · simp [set, hk]
  · have hk2 : has m k = false := by simpa using hk
    rw [set_of_not_has m k v hk2]
    simp

theorem mem_set (m : JSMap α) (k : String) (v : α) (e : String × α) (he : e ∈ set m k v) :
    e ∈ m ∨ e = (k, v) := by
  by_cases hk : has m k = true
  · simp only [set, hk, if_true, List.mem_map] at he
    obtain ⟨d, hd, hde⟩ := he
    by_cases hdk : d.1 = k
    · right
      simp [hdk] at hde
      exact hde.symm
    · left
      simp [hdk] at hde
      rw [← hde]
      exact hd
  · have hk2 : has m k = false := by simpa using hk
    rw [set_of_not_has m k v hk2] at he
    simpa using he

theorem get_append (m m2 : JSMap α) (x : String) :
    get (m ++ m2) x = (get m x).or (get m2 x) := by
  induction m with
  | nil => simp [get_nil]
  | cons e m ih =>
    rw [List.cons_append, get_cons, get_cons, ih]
    by_cases h : e.1 = x
    · simp [h]
    · simp [h]

theorem get_of_mem_nodup (m : JSMap α) (k : String) (v : α)
    (hnd : (m.map (fun e => e.1)).Nodup) (h : (k, v) ∈ m) : get m k = some v := by
  induction m with
  | nil => simp at h
  | cons e m ih =>
    rw [List.map_cons, List.nodup_cons] at hnd
    rw [get_cons]
    rcases List.mem_cons.mp h with h1 | h1
    · subst h1
      simp
    · have hne : ¬ e.1 = k := by
        intro hek
        apply hnd.1
        rw [hek]
        exact List.mem_map.mpr ⟨(k, v), h1, rfl⟩
      rw [if_neg hne]
      exact ih hnd.2 h1

end JSMap

theorem foldl_set_nodup (es : List (String × Commit)) :
    ∀ (m : JSMap Commit), (m.map (fun e => e.1)).Nodup →
      ((es.foldl (fun m e => JSMap.set m e.1 e.2) m).map (fun e => e.1)).Nodup := by
  induction es with
  | nil => intro m h; exact h
  | cons e es ih => intro m h; exact ih _ (JSMap.keys_nodup_set m e.1 e.2 h)

theorem foldl_set_length (es : List (String × Commit)) :
    ∀ (m : JSMap Commit),
      (es.foldl (fun m e => JSMap.set m e.1 e.2) m).length ≤ m.length + es.length := by
  induction es with
  | nil => intro m; simp
  | cons e es ih =>
    intro m
    have h1 := ih (JSMap.set m e.1 e.2)
    have h2 := JSMap.length_set_le m e.1 e.2
    simp only [List.foldl_cons, List.length_cons]
    omega

theorem foldl_set_mem (es : List (String × Commit)) :
    ∀ (m : JSMap Commit) (d : String × Commit),
      d ∈ es.foldl (fun m e => JSMap.set m e.1 e.2) m → d ∈ m ∨ d ∈ es := by
  induction es with
  | nil => intro m d h; exact Or.inl h
  | cons e es ih =>
    intro m d h
    rcases ih _ d h with h1 | h1
    · rcases JSMap.mem_set m e.1 e.2 d h1 with h2 | h2
      · exact Or.inl h2
      · exact Or.inr (by rw [h2]; exact List.mem_cons_self _ _)
    · exact Or.inr (List.mem_cons_of_mem _ h1)

theorem foldl_set_fresh (es : List (String × Commit)) :
    ∀ (m : JSMap Commit), (m.map (fun e => e.1) ++ es.map (fun e => e.1)).Nodup →
      es.foldl (fun m e => JSMap.set m e.1 e.2) m = m ++ es := by
  induction es with
  | nil => intro m _; simp
  | cons e es ih =>
    intro m h
    have hnot : JSMap.has m e.1 = false := by
      cases hh : JSMap.has m e.1 with
      | false => rfl
      | true =>
        exfalso
        have hmem := (JSMap.has_iff_mem_keys m e.1).mp hh
        rw [List.nodup_append] at h
        exact h.2.2 hmem (by simp)
    rw [List.foldl_cons, JSMap.set_of_not_has m e.1 e.2 hnot, ih]
    · simp
    · simpa using h

theorem initialMap_keys_nodup (allCommits : List Commit) :
    ((initialMap allCommits).map (fun e => e.1)).Nodup := by
  unfold initialMap
  rw [JSMap.keys_forEach]
  exact foldl_set_nodup _ [] List.nodup_nil

theorem initialMap_length_le (allCommits : List Commit) :
    (initialMap allCommits).length ≤ allCommits.length := by
  unfold initialMap JSMap.forEach JSMap.ofEntries
  have h := foldl_set_length (allCommits.map (fun c => (c.sha, c))) []
  simpa using h

theorem initialMap_mem (allCommits : List Commit) (e : String × Commit)
    (he : e ∈ initialMap allCommits) :
    ∃ c ∈ allCommits, e = (c.sha, resetNode c) := by
  unfold initialMap JSMap.forEach at he
  obtain ⟨d, hd, hde⟩ := List.mem_map.mp he
  rcases foldl_set_mem _ [] d hd with h | h
  · simp at h
  · obtain ⟨c, hc, hcd⟩ := List.mem_map.mp h
    refine ⟨c, hc, ?_⟩
    rw [← hde, ← hcd]

theorem initialMap_keyed (allCommits : List Commit) : KeyedBySha (initialMap allCommits) := by
  intro e he
  obtain ⟨c, _, hce⟩ := initialMap_mem allCommits e he
  rw [hce]
  rfl

theorem initialMap_of_nodup (allCommits : List Commit)
    (hnd : (allCommits.map (fun c => c.sha)).Nodup) :
    initialMap allCommits = allCommits.map (fun c => (c.sha, resetNode c)) := by
  unfold initialMap JSMap.ofEntries
  rw [foldl_set_fresh]
  · simp [JSMap.forEach, List.map_map]
  · simpa [List.map_map] using hnd

end Reposcape

namespace Reposcape

theorem mergeBranchCommits_eq (m : JSMap Commit) (l : List Commit) :
    mergeBranchCommits m l = l.foldl addIfNew m := by
  unfold mergeBranchCommits
  congr 1
  funext m c
  unfold addIfNew
  cases h : JSMap.has m c.sha with
  | true => simp
  | false => simp [JSMap.set_of_not_has m c.sha c h]

theorem assemble_from (responses : List (Option (List Commit))) :
    ∀ (m : JSMap Commit),
      responses.foldl
        (fun m r =>
          match r with
          | none => m
          | some branchCommits => mergeBranchCommits m branchCommits) m
        = (received responses).foldl addIfNew m := by
  induction responses with
  | nil => intro m; rfl
  | cons r rs ih =>
    intro m
    cases r with
    | none =>
      rw [List.foldl_cons, ih]
      simp [received]
    | some l =>
      rw [List.foldl_cons, ih]
      show List.foldl addIfNew (mergeBranchCommits m l) (received rs) = _
      rw [mergeBranchCommits_eq]
      simp [received, List.foldl_append]

/-- The assembled map is the fold of `addIfNew` over the received records. -/
theorem assemble_eq (responses : List (Option (List Commit))) :
    assemble responses = (received responses).foldl addIfNew [] :=
  assemble_from responses []

theorem addIfNew_keys_nodup (m : JSMap Commit) (c : Commit)
    (h : (m.map (fun e => e.1)).Nodup) : ((addIfNew m c).map (fun e => e.1)).Nodup := by
  unfold addIfNew
  cases hh : JSMap.has m c.sha with
  | true => simpa using h
  | false =>
    simp only [Bool.false_eq_true, if_false, List.map_append]
    refine List.Nodup.append h (by simp) ?_
    intro x hx hx2
    have hxk : x = c.sha := by simpa using hx2
    subst hxk
    have := (JSMap.has_iff_mem_keys m c.sha).mpr hx
    rw [hh] at this
    simp at this

theorem foldl_addIfNew_nodup (l : List Commit) :
    ∀ (m : JSMap Commit), (m.map (fun e => e.1)).Nodup →
      ((l.foldl addIfNew m).map (fun e => e.1)).Nodup := by
  induction l with
  | nil => intro m h; exact h
  | cons c l ih => intro m h; exact ih _ (addIfNew_keys_nodup m c h)

theorem foldl_addIfNew_keyed (l : List Commit) :
    ∀ (m : JSMap Commit), KeyedBySha m → KeyedBySha (l.foldl addIfNew m) := by
  induction l with
  | nil => intro m h; exact h
  | cons c l ih =>
    intro m h
    apply ih
    intro e he
    unfold addIfNew at he
    cases hh : JSMap.has m c.sha with
    | true =>
      rw [hh] at he
      exact h e (by simpa using he)
    | false =>
      rw [hh] at he
      simp only [Bool.false_eq_true, if_false, List.mem_append, List.mem_singleton] at he
      rcases he with h1 | h1
      · exact h e h1
      · rw [h1]

theorem get_foldl_addIfNew (l : List Commit) (x : String) :
    ∀ (m : JSMap Commit),
      JSMap.get (l.foldl addIfNew m) x = (JSMap.get m x).or (l.find? (fun c => c.sha == x)) := by
  induction l with
  | nil => intro m; simp
  | cons c l ih =>
    intro m
    rw [List.foldl_cons, ih, List.find?_cons]
    unfold addIfNew
    by_cases hcx : c.sha = x
    · have hb : (c.sha == x) = true := by simpa using hcx
      rw [hb]
      cases hh : JSMap.has m c.sha with
      | true =>
        rw [JSMap.has_eq_isSome, hcx] at hh
        cases hg : JSMap.get m x with
        | none => rw [hg] at hh; simp at hh
        | some v => simp [hg]
      | false =>
        simp only [Bool.false_eq_true, ↓reduceIte]
        rw [JSMap.get_append, JSMap.get_cons, JSMap.get_nil, if_pos hcx]
        cases hg : JSMap.get m x <;> simp
    · have hb : (c.sha == x) = false := by simpa using hcx
      rw [hb]
      cases hh : JSMap.has m c.sha with
      | true => simp
      | false =>
        simp only [Bool.false_eq_true, ↓reduceIte]
        rw [JSMap.get_append, JSMap.get_cons, JSMap.get_nil, if_neg hcx]
        cases hg : JSMap.get m x <;> simp

theorem assemble_keys_nodup (responses : List (Option (List Commit))) :
    ((assemble responses).map (fun e => e.1)).Nodup := by
  rw [assemble_eq]
  exact foldl_addIfNew_nodup _ [] List.nodup_nil

theorem assemble_keyed (responses : List (Option (List Commit))) :
    KeyedBySha (assemble responses) := by
  rw [assemble_eq]
  exact foldl_addIfNew_keyed _ [] (fun e he => by simp at he)

theorem assemble_get (responses : List (Option (List Commit))) (x : String) :
    JSMap.get (assemble responses) x = (received responses).find? (fun c => c.sha == x) := by
  rw [assemble_eq, get_foldl_addIfNew]
  simp [JSMap.get_nil]

theorem assemble_values_sha (responses : List (Option (List Commit))) :
    (JSMap.values (assemble responses)).map (fun c => c.sha)
      = (assemble responses).map (fun e => e.1) := by
  unfold JSMap.values
  rw [List.map_map]
  apply List.map_congr_left
  intro e he
  exact (assemble_keyed responses e he).symm

theorem assemble_mem_keys (responses : List (Option (List Commit))) (x : String) :
    x ∈ (assemble responses).map (fun e => e.1) ↔ x ∈ (received responses).map (fun c => c.sha) := by
  rw [← JSMap.has_iff_mem_keys, JSMap.has_eq_isSome, assemble_get, List.find?_isSome]
  simp [List.mem_map]

/-- The number of assembled entries is the number of distinct received shas. -/
theorem assemble_length (responses : List (Option (List Commit))) :
    (assemble responses).length = ((received responses).map (fun c => c.sha)).toFinset.card := by
  have h1 := List.toFinset_card_of_nodup (assemble_keys_nodup responses)
  rw [List.length_map] at h1
  rw [← h1]
  congr 1
  ext x
  simp only [List.mem_toFinset]
  exact assemble_mem_keys responses x

end Reposcape

namespace Reposcape

/-! ## What the stamps do to one node -/

theorem visit_fetched (bc : Columns) (main : Option String) (b : BranchRef) (n : Commit) :
    (visit bc main b n).fetched = n.fetched ∧
      (visit bc main b n).timelineIndex = n.timelineIndex := by
  unfold visit Commit.fetched
  by_cases h1 : n.column = none <;> by_cases h2 : some b.name = main <;> simp [h1, h2]

theorem fallback_fetched (main : Option String) (n : Commit) :
    (fallback main n).fetched = n.fetched ∧ (fallback main n).timelineIndex = n.timelineIndex := by
  unfold fallback Commit.fetched
  by_cases h1 : n.column = none <;> simp [h1]

theorem foldl_stamp_fetched (bc : Columns) (main : Option String) (fuel : Nat)
    (cm0 : JSMap Commit) (x : String) (bs : List BranchRef) :
    ∀ (n : Commit), (bs.foldl (stamp bc main fuel cm0 x) n).fetched = n.fetched ∧
      (bs.foldl (stamp bc main fuel cm0 x) n).timelineIndex = n.timelineIndex := by
  induction bs with
  | nil => intro n; exact ⟨rfl, rfl⟩
  | cons b bs ih =>
    intro n
    rw [List.foldl_cons]
    have h1 := ih (stamp bc main fuel cm0 x n b)
    have h2 : (stamp bc main fuel cm0 x n b).fetched = n.fetched ∧
        (stamp bc main fuel cm0 x n b).timelineIndex = n.timelineIndex := by
      unfold stamp
      split
      · exact visit_fetched bc main b n
      · exact ⟨rfl, rfl⟩
    exact ⟨h1.1.trans h2.1, h1.2.trans h2.2⟩

/-- The layout leaves the fetched fields of a node as they are. -/
theorem layoutOf_fetched (main : Option String) (branches : List BranchRef) (fuel : Nat)
    (cm0 : JSMap Commit) (x : String) (n : Commit) :
    (layoutOf main branches fuel cm0 x n).fetched = n.fetched := by
  unfold layoutOf
  exact ((fallback_fetched main _).1).trans (foldl_stamp_fetched _ main fuel cm0 x _ n).1

theorem fetched_sha {a b : Commit} (h : a.fetched = b.fetched) : a.sha = b.sha := by
  unfold Commit.fetched at h
  exact congrArg (fun t => t.1) h

theorem layoutOf_sha (main : Option String) (branches : List BranchRef) (fuel : Nat)
    (cm0 : JSMap Commit) (x : String) (n : Commit) :
    (layoutOf main branches fuel cm0 x n).sha = n.sha :=
  fetched_sha (layoutOf_fetched main branches fuel cm0 x n)

theorem fallback_column_isSome (main : Option String) (n : Commit) :
    ∃ col, (fallback main n).column = some col := by
  unfold fallback
  cases h : n.column with
  | none => exact ⟨LaneValue.number 0, by simp⟩
  | some v => exact ⟨v, by simp [h]⟩

theorem foldl_stamp_unvisited (bc : Columns) (main : Option String) (fuel : Nat)
    (cm0 : JSMap Commit) (x : String) (bs : List BranchRef)
    (h : ∀ b ∈ bs, x ∉ trail cm0 fuel (some b.commit.sha)) (n : Commit) :
    bs.foldl (stamp bc main fuel cm0 x) n = n := by
  induction bs generalizing n with
  | nil => rfl
  | cons b bs ih =>
    rw [List.foldl_cons]
    have h1 : stamp bc main fuel cm0 x n b = n := by
      unfold stamp
      rw [if_neg (h b (List.mem_cons_self _ _))]
    rw [h1]
    exact ih (fun c hc => h c (List.mem_cons_of_mem _ hc)) n

theorem foldl_stamp_claimed (bc : Columns) (main : Option String) (fuel : Nat)
    (cm0 : JSMap Commit) (x : String) (bs : List BranchRef)
    (h : ∀ b ∈ bs, some b.name ≠ main) (n : Commit) (v : LaneValue) (hn : n.column = some v) :
    bs.foldl (stamp bc main fuel cm0 x) n = n := by
  induction bs generalizing n with
  | nil => rfl
  | cons b bs ih =>
    rw [List.foldl_cons]
    have h1 : stamp bc main fuel cm0 x n b = n := by
      unfold stamp visit
      have hb := h b (List.mem_cons_self _ _)
      split <;> simp [hn, hb]
    rw [h1]
    exact ih (fun c hc => h c (List.mem_cons_of_mem _ hc)) n hn

theorem foldl_stamp_trunk (bc : Columns) (main : Option String) (fuel : Nat)
    (cm0 : JSMap Commit) (x : String) (bs : List BranchRef)
    (h : ∀ b ∈ bs, some b.name = main) (n : Commit) (v : LaneValue) (hn : n.column = some v) :
    (bs.foldl (stamp bc main fuel cm0 x) n).column = n.column ∧
      (bs.foldl (stamp bc main fuel cm0 x) n).branchName = n.branchName ∧
      ((n.isMainBranch = true ∨ ∃ b ∈ bs, x ∈ trail cm0 fuel (some b.commit.sha)) →
        (bs.foldl (stamp bc main fuel cm0 x) n).isMainBranch = true) := by
  induction bs generalizing n with
  | nil =>
    refine ⟨rfl, rfl, ?_⟩
    rintro (h1 | ⟨b, hb, _⟩)
    · exact h1
    · simp at hb
  | cons b bs ih =>
    rw [List.foldl_cons]
    have hb := h b (List.mem_cons_self _ _)
    have hc : (stamp bc main fuel cm0 x n b).column = n.column ∧
        (stamp bc main fuel cm0 x n b).branchName = n.branchName ∧
        ((n.isMainBranch = true ∨ x ∈ trail cm0 fuel (some b.commit.sha)) →
          (stamp bc main fuel cm0 x n b).isMainBranch = true) := by
      unfold stamp visit
      by_cases hx : x ∈ trail cm0 fuel (some b.commit.sha)
      · simp [hx, hn, hb]
      · simp [hx]
    have hi := ih (fun c hc => h c (List.mem_cons_of_mem _ hc)) _ (hc.1.trans hn)
    refine ⟨hi.1.trans hc.1, hi.2.1.trans hc.2.1, ?_⟩
    rintro (h1 | ⟨c, hcm, hcx⟩)
    · exact hi.2.2 (Or.inl (hc.2.2 (Or.inl h1)))
    · rcases List.mem_cons.mp hcm with h2 | h2
      · subst h2
        exact hi.2.2 (Or.inl (hc.2.2 (Or.inr hcx)))
      · exact hi.2.2 (Or.inr ⟨c, h2, hcx⟩)

/-- The layout of a node that no walk visits: the fallback of the node. -/
theorem layoutOf_orphan (main : Option String) (branches : List BranchRef) (fuel : Nat)
    (cm0 : JSMap Commit) (x : String) (n : Commit)
    (h : ∀ b ∈ branches, x ∉ trail cm0 fuel (some b.commit.sha)) :
    layoutOf main branches fuel cm0 x n = fallback main n := by
  unfold layoutOf
  rw [foldl_stamp_unvisited]
  intro b hb
  apply h b
  unfold orderedBranches nonTrunk trunkOnly at hb
  rcases List.mem_append.mp hb with h1 | h1
  · exact (List.mem_filter.mp h1).1
  · exact (List.mem_filter.mp h1).1

/-- The layout of a node that a non-trunk branch reaches first and that the
trunk reaches too. -/
theorem layoutOf_first_claim (main : Option String) (branches : List BranchRef) (fuel : Nat)
    (cm0 : JSMap Commit) (x : String) (n : Commit) (hn : n.column = none)
    (pre post : List BranchRef) (b t : BranchRef)
    (hsplit : nonTrunk main branches = pre ++ b :: post)
    (hpre : ∀ c ∈ pre, x ∉ trail cm0 fuel (some c.commit.sha))
    (hb : x ∈ trail cm0 fuel (some b.commit.sha))
    (ht : t ∈ trunkOnly main branches)
    (hxt : x ∈ trail cm0 fuel (some t.commit.sha)) :
    (layoutOf main branches fuel cm0 x n).column = branchColumns main branches b.name ∧
      (∃ lane, branchColumns main branches b.name = some lane) ∧
      (layoutOf main branches fuel cm0 x n).branchName = some b.name ∧
      (layoutOf main branches fuel cm0 x n).isMainBranch = true := by
  have hbmem : b ∈ nonTrunk main branches := by rw [hsplit]; simp
  obtain ⟨lane, hlane⟩ := branchColumns_isSome main branches b hbmem
  have hbne : some b.name ≠ main := (mem_nonTrunk.mp hbmem).2
  have hall : ∀ c ∈ nonTrunk main branches, some c.name ≠ main :=
    fun c hc => (mem_nonTrunk.mp hc).2
  have hpost : ∀ c ∈ post, some c.name ≠ main := by
    intro c hc
    apply hall
    rw [hsplit]
    simp [hc]
  have htr : ∀ c ∈ trunkOnly main branches, some c.name = main := by
    intro c hc
    unfold trunkOnly at hc
    simpa using (List.mem_filter.mp hc).2
  -- the node after the walk of `b`
  have hvis : stamp (branchColumns main branches) main fuel cm0 x n b
      = { n with column := some lane, branchName := some b.name } := by
    unfold stamp visit
    simp [hb, hn, hbne, hlane]
  unfold layoutOf orderedBranches
  rw [hsplit, List.foldl_append, List.foldl_append, List.foldl_cons,
    foldl_stamp_unvisited _ _ _ _ _ pre hpre, hvis,
    foldl_stamp_claimed _ _ _ _ _ post hpost _ lane rfl]
  have h3 := foldl_stamp_trunk (branchColumns main branches) main fuel cm0 x
    (trunkOnly main branches) htr { n with column := some lane, branchName := some b.name }
    lane rfl
  have hcol := h3.1
  simp only at hcol
  unfold fallback
  rw [if_neg (by rw [hcol]; simp)]
  refine ⟨by rw [hcol, hlane], ⟨lane, hlane⟩, h3.2.1, h3.2.2 (Or.inr ⟨t, ht, hxt⟩)⟩

end Reposcape

namespace Reposcape

/-! ## The shape of a trail -/

theorem chain_nil_current (cm : JSMap Commit) (fuel : Nat) (cur : Option String)
    (h : chain cm fuel cur = some []) : current cm cur = none := by
  cases fuel with
  | zero =>
    unfold chain at h
    cases hc : current cm cur with
    | none => rfl
    | some r => rw [hc] at h; simp at h
  | succ fuel =>
    unfold chain at h
    cases hc : current cm cur with
    | none => rfl
    | some r =>
      rw [hc] at h
      cases hr : chain cm fuel (firstParent r.2) <;> simp [hr] at h

theorem chain_last (cm : JSMap Commit) :
    ∀ (fuel : Nat) (cur : Option String) (p : List String),
      chain cm fuel cur = some p → ∀ last, p.getLast? = some last →
        ∃ node, JSMap.get cm last = some node ∧ current cm (firstParent node) = none := by
  intro fuel
  induction fuel with
  | zero =>
    intro cur p h last hl
    unfold chain at h
    cases hc : current cm cur with
    | none =>
      rw [hc] at h
      simp only [Option.some.injEq] at h
      rw [← h] at hl
      simp at hl
    | some r => rw [hc] at h; simp at h
  | succ fuel ih =>
    intro cur p h last hl
    unfold chain at h
    cases hc : current cm cur with
    | none =>
      rw [hc] at h
      simp only [Option.some.injEq] at h
      rw [← h] at hl
      simp at hl
    | some r =>
      obtain ⟨s, node⟩ := r
      rw [hc] at h
      simp only at h
      cases hr : chain cm fuel (firstParent node) with
      | none => rw [hr] at h; simp at h
      | some rest =>
        rw [hr] at h
        simp only [Option.map_some', Option.some.injEq] at h
        subst h
        cases rest with
        | nil =>
          simp only [List.getLast?_singleton, Option.some.injEq] at hl
          subst hl
          exact ⟨node, (current_fst hc).2.2, chain_nil_current cm fuel _ hr⟩
        | cons r1 rest1 =>
          rw [List.getLast?_cons_cons] at hl
          exact ih _ _ hr last hl

theorem chain_head (cm : JSMap Commit) (fuel : Nat) (h : String) (p : List String)
    (hp : chain cm fuel (some h) = some p) (ht : truthy h = true)
    (hh : JSMap.has cm h = true) : p.head? = some h := by
  rw [JSMap.has_eq_isSome] at hh
  cases hg : JSMap.get cm h with
  | none => rw [hg] at hh; simp at hh
  | some node =>
    have hc : current cm (some h) = some (h, node) := by simp [current, ht, hg]
    cases fuel with
    | zero =>
      unfold chain at hp
      rw [hc] at hp
      simp at hp
    | succ fuel =>
      unfold chain at hp
      rw [hc] at hp
      simp only at hp
      cases hr : chain cm fuel (firstParent node) with
      | none => rw [hr] at hp; simp at hp
      | some rest =>
        rw [hr] at hp
        simp only [Option.map_some', Option.some.injEq] at hp
        rw [← hp]
        rfl

theorem current_none_stop (cm : JSMap Commit) (node : Commit)
    (h : current cm (firstParent node) = none) :
    node.parents = [] ∨
      ∃ p, node.parents.head? = some p ∧ (p = "" ∨ JSMap.has cm p = false) := by
  cases hp : node.parents with
  | nil => exact Or.inl rfl
  | cons p rest =>
    right
    refine ⟨p, rfl, ?_⟩
    have hfp : firstParent node = some p := by simp [firstParent, hp]
    rw [hfp] at h
    simp only [current] at h
    by_cases ht : truthy p = true
    · right
      rw [if_pos ht] at h
      rw [JSMap.has_eq_isSome]
      cases hg : JSMap.get cm p with
      | none => rfl
      | some v => rw [hg] at h; simp at h
    · left
      simpa [truthy] using ht

theorem link_parent {cm : JSMap Commit} {s p : String} (h : Link cm s p) :
    ∃ node, JSMap.get cm s = some node ∧ node.parents.head? = some p := by
  obtain ⟨node, hcur, hfp, _⟩ := h
  exact ⟨node, (current_fst hcur).2.2, hfp⟩

/-- With no first-parent cycle and fuel for every entry, `processCommitGraph`
returns the entries of the initial map, each with its layout. -/
theorem processCommitGraph_acyclic (fuel : Nat) (allCommits : List Commit)
    (branches : List BranchRef) (hac : Acyclic (initialMap allCommits))
    (hfuel : allCommits.length ≤ fuel) :
    processCommitGraph fuel allCommits branches
      = some ((initialMap allCommits).map
          (fun e => layoutOf (mainBranchName branches) branches fuel (initialMap allCommits) e.1 e.2)) :=
  processCommitGraph_eq fuel allCommits branches
    (fun b _ => chain_terminates _ hac fuel
      (le_trans (initialMap_length_le allCommits) hfuel) (some b.commit.sha))

end Reposcape

namespace Reposcape

/-- Whenever `processCommitGraph` returns, it returns the entries of the
initial map, each with its layout. -/
theorem processCommitGraph_some (fuel : Nat) (allCommits : List Commit)
    (branches : List BranchRef) (out : List Commit)
    (h : processCommitGraph fuel allCommits branches = some out) :
    out = (initialMap allCommits).map
      (fun e => layoutOf (mainBranchName branches) branches fuel (initialMap allCommits) e.1 e.2) := by
  by_cases hall : ∀ b ∈ orderedBranches (mainBranchName branches) branches,
      chain (initialMap allCommits) fuel (some b.commit.sha)
        = some (trail (initialMap allCommits) fuel (some b.commit.sha))
  · rw [processCommitGraph_eq fuel allCommits branches hall] at h
    exact (Option.some.inj h).symm
  · exfalso
    push_neg at hall
    obtain ⟨b, hb, hne⟩ := hall
    have hnone : chain (initialMap allCommits) fuel (some b.commit.sha) = none := by
      cases hc : chain (initialMap allCommits) fuel (some b.commit.sha) with
      | none => rfl
      | some p =>
        exfalso
        apply hne
        rw [hc, chain_eq_trail _ _ _ _ hc]
    have hw := walkAll_none (branchColumns (mainBranchName branches) branches)
      (mainBranchName branches) fuel (initialMap allCommits) _ (initialMap allCommits) rfl
      ⟨b, hb, hnone⟩
    unfold processCommitGraph at h
    simp only at h
    unfold initialMap at hw
    rw [hw] at h
    simp at h

theorem exampleCommits_acyclic : Acyclic (initialMap exampleCommits) :=
  acyclic_of_rankedBy _ exampleRank (by decide)

theorem orphanCommits_acyclic : Acyclic (initialMap orphanCommits) :=
  acyclic_of_rankedBy _ exampleRank (by decide)

/-! ## The claims -/

/-- C10: for every branch list and every commit set whose first-parent links
form no cycle, `processCommitGraph` returns with fuel for `N` rounds a walk,
`N` the number of commits, and the walk of every branch, on whatever state
the walks before it have left, ends after visiting a path of at most `N`
nodes: the path starts at the head when the head is fetched, goes from each
node to its first parent, stays inside the fetched set, and its last node has
no parents or a first parent that is empty or not fetched. -/
theorem walks_terminate (allCommits : List Commit) (branches : List BranchRef)
    (hac : Acyclic (initialMap allCommits)) :
    (∃ out, processCommitGraph allCommits.length allCommits branches = some out) ∧
    ∀ b ∈ branches, ∃ path : List String,
      path.length ≤ allCommits.length ∧
      (∀ cm : JSMap Commit, firstParents cm = firstParents (initialMap allCommits) →
        walk (branchColumns (mainBranchName branches) branches) (mainBranchName branches) b
            allCommits.length (some b.commit.sha) cm
          = some (applyVisits (branchColumns (mainBranchName branches) branches)
              (mainBranchName branches) b path cm)) ∧
      (truthy b.commit.sha = true → JSMap.has (initialMap allCommits) b.commit.sha = true →
        path.head? = some b.commit.sha) ∧
      List.Chain'
        (fun s p => ∃ node, JSMap.get (initialMap allCommits) s = some node ∧
          node.parents.head? = some p) path ∧
      (∀ s ∈ path, JSMap.has (initialMap allCommits) s = true) ∧
      (∀ last, path.getLast? = some last →
        ∃ node, JSMap.get (initialMap allCommits) last = some node ∧
          (node.parents = [] ∨
            ∃ p, node.parents.head? = some p ∧
              (p = "" ∨ JSMap.has (initialMap allCommits) p = false))) := by
  refine ⟨⟨_, processCommitGraph_acyclic _ allCommits branches hac (le_refl _)⟩, ?_⟩
  intro b _
  have hch := chain_terminates (initialMap allCommits) hac allCommits.length
    (initialMap_length_le allCommits) (some b.commit.sha)
  refine ⟨trail (initialMap allCommits) allCommits.length (some b.commit.sha), ?_, ?_, ?_, ?_,
    ?_, ?_⟩
  · exact le_trans (trail_length_le _ hac _ _) (initialMap_length_le allCommits)
  · intro cm hcm
    rw [walk_eq_chain, chain_congr hcm, hch]
    rfl
  · intro ht hh
    exact chain_head _ _ _ _ hch ht hh
  · exact List.Chain'.imp (fun s p h => link_parent h) (trail_chain _ _ _)
  · intro s hs
    exact (JSMap.has_iff_mem_keys _ s).mpr (trail_mem_keys _ _ _ s hs)
  · intro last hl
    obtain ⟨node, hg, hstop⟩ := chain_last _ _ _ _ hch last hl
    exact ⟨node, hg, current_none_stop _ node hstop⟩

/-- C10, on the worked example: the first-parent links form no cycle, and
`processCommitGraph` returns with fuel for three rounds a walk. -/
theorem walks_terminate_witness :
    Acyclic (initialMap exampleCommits) ∧
      ∃ out, processCommitGraph exampleCommits.length exampleCommits exampleBranches = some out :=
  ⟨exampleCommits_acyclic, (walks_terminate exampleCommits exampleBranches exampleCommits_acyclic).1⟩

theorem mem_keys_set (m : JSMap Commit) (k x : String) (v : Commit) :
    x ∈ (JSMap.set m k v).map (fun e => e.1) ↔ x ∈ m.map (fun e => e.1) ∨ x = k := by
  by_cases hk : JSMap.has m k = true
  · rw [JSMap.keys_set_of_has m k v hk]
    constructor
    · exact Or.inl
    · rintro (h | h)
      · exact h
      · rw [h]
        exact (JSMap.has_iff_mem_keys m k).mp hk
  · have hk2 : JSMap.has m k = false := by simpa using hk
    rw [JSMap.set_of_not_has m k v hk2]
    simp

theorem foldl_set_keys (es : List (String × Commit)) :
    ∀ (m : JSMap Commit) (x : String),
      x ∈ m.map (fun e => e.1) ∨ x ∈ es.map (fun e => e.1) →
        x ∈ (es.foldl (fun m e => JSMap.set m e.1 e.2) m).map (fun e => e.1) := by
  induction es with
  | nil =>
    intro m x h
    rcases h with h | h
    · exact h
    · simp at h
  | cons e es ih =>
    intro m x h
    rw [List.foldl_cons]
    apply ih
    rcases h with h | h
    · exact Or.inl ((mem_keys_set m e.1 x e.2).mpr (Or.inl h))
    · rw [List.map_cons, List.mem_cons] at h
      rcases h with h | h
      · exact Or.inl ((mem_keys_set m e.1 x e.2).mpr (Or.inr h))
      · exact Or.inr h

/-- Every commit of the commit set has its sha among the keys of the initial
map. -/
theorem initialMap_has (allCommits : List Commit) (c : Commit) (hc : c ∈ allCommits) :
    c.sha ∈ (initialMap allCommits).map (fun e => e.1) := by
  unfold initialMap
  rw [JSMap.keys_forEach]
  apply foldl_set_keys
  right
  rw [List.map_map]
  exact List.mem_map.mpr ⟨c, hc, rfl⟩

/-- C7: when the first-parent links form no cycle and the fuel covers the
commits, `processCommitGraph` returns; there is a returned node for every
commit of the commit set, and every returned node has the sha of one; every
returned node has a column; and a returned node on the trail of no branch (an
orphan) has column 0 and, when the trunk name is truthy, the trunk mark. -/
theorem orphans_get_column_zero (fuel : Nat) (allCommits : List Commit)
    (branches : List BranchRef) (hac : Acyclic (initialMap allCommits))
    (hfuel : allCommits.length ≤ fuel) :
    ∃ out, processCommitGraph fuel allCommits branches = some out ∧
      (∀ c ∈ allCommits, ∃ n ∈ out, n.sha = c.sha) ∧
      (∀ n ∈ out, ∃ c ∈ allCommits, c.sha = n.sha) ∧
      (∀ n ∈ out, ∃ col, n.column = some col) ∧
      ∀ n ∈ out,
        (∀ b ∈ branches, n.sha ∉ trail (initialMap allCommits) fuel (some b.commit.sha)) →
          n.column = some (LaneValue.number 0) ∧
            (truthyOpt (mainBranchName branches) = true → n.isMainBranch = true) := by
  refine ⟨_, processCommitGraph_acyclic fuel allCommits branches hac hfuel, ?_, ?_, ?_, ?_⟩
  · intro c hc
    obtain ⟨e, he, hek⟩ := List.mem_map.mp (initialMap_has allCommits c hc)
    refine ⟨_, List.mem_map.mpr ⟨e, he, rfl⟩, ?_⟩
    rw [layoutOf_sha, ← initialMap_keyed allCommits e he]
    exact hek
  · intro n hn
    obtain ⟨e, he, hen⟩ := List.mem_map.mp hn
    obtain ⟨c, hc, hce⟩ := initialMap_mem allCommits e he
    refine ⟨c, hc, ?_⟩
    rw [← hen, layoutOf_sha, hce]
    rfl
  · intro n hn
    obtain ⟨e, _, hen⟩ := List.mem_map.mp hn
    rw [← hen]
    exact fallback_column_isSome _ _
  · intro n hn horph
    obtain ⟨e, he, hen⟩ := List.mem_map.mp hn
    have hkey : e.1 = e.2.sha := initialMap_keyed allCommits e he
    have hsha : n.sha = e.1 := by
      rw [← hen, layoutOf_sha, hkey]
    rw [hsha] at horph
    rw [layoutOf_orphan _ _ _ _ _ _ horph] at hen
    obtain ⟨c, _, hce⟩ := initialMap_mem allCommits e he
    rw [hce] at hen
    rw [← hen]
    constructor
    · simp [fallback, resetNode]
    · intro ht
      simp [fallback, resetNode, ht]

/-- C7, on the worked example with the orphan `D`: `processCommitGraph`
returns, and the result has a node `D`, on the trail of no branch, with
column 0 and the trunk mark. -/
theorem orphans_get_column_zero_witness :
    ∃ out, processCommitGraph 4 orphanCommits exampleBranches = some out ∧
      ∃ n ∈ out, n.sha = "D" ∧ n.column = some (LaneValue.number 0) ∧
        n.isMainBranch = true := by
  obtain ⟨out, hout, hall, _, _, horph⟩ :=
    orphans_get_column_zero 4 orphanCommits exampleBranches orphanCommits_acyclic (by decide)
  obtain ⟨n, hn, hsha⟩ := hall (rawCommit "D" [] 0) (by decide)
  have hD : n.sha = "D" := hsha
  have h := horph n hn (by rw [hD]; decide)
  exact ⟨out, hout, n, hn, hD, h.1, h.2 (by decide)⟩

end Reposcape

namespace Reposcape

/-- C2: when the first-parent links form no cycle and the fuel covers the
commits, `processCommitGraph` returns, and a node that lies on the trail of
the non-trunk branch `b`, on the trail of no non-trunk branch walked before
`b`, and on the trail of a trunk entry `t`, is returned with the lane and the
name of `b` and with the trunk mark. On the worked example (`main` with head
`A`, `feat` with head `B`, `A` and `B` with parent `C`) the result has three
nodes, `B` and `C` with the lane of `feat`, `A` with column 0, and `C` has
the trunk mark. -/
theorem first_claim_survives_trunk :
    (∀ (fuel : Nat) (allCommits : List Commit) (branches pre post : List BranchRef)
        (b t : BranchRef) (x : String),
        Acyclic (initialMap allCommits) → allCommits.length ≤ fuel →
        nonTrunk (mainBranchName branches) branches = pre ++ b :: post →
        (∀ c ∈ pre, x ∉ trail (initialMap allCommits) fuel (some c.commit.sha)) →
        x ∈ trail (initialMap allCommits) fuel (some b.commit.sha) →
        t ∈ trunkOnly (mainBranchName branches) branches →
        x ∈ trail (initialMap allCommits) fuel (some t.commit.sha) →
        ∃ out, processCommitGraph fuel allCommits branches = some out ∧
          (∃ n ∈ out, n.sha = x) ∧
          ∀ n ∈ out, n.sha = x →
            n.column = branchColumns (mainBranchName branches) branches b.name ∧
            (∃ lane, n.column = some lane) ∧
            n.branchName = some b.name ∧
            n.isMainBranch = true) ∧
    (∃ a b c, processCommitGraph 3 exampleCommits exampleBranches = some [a, b, c] ∧
      a.sha = "A" ∧ b.sha = "B" ∧ c.sha = "C" ∧
      a.column = some (LaneValue.number 0) ∧
      b.column = branchColumns (mainBranchName exampleBranches) exampleBranches "feat" ∧
      c.column = branchColumns (mainBranchName exampleBranches) exampleBranches "feat" ∧
      b.branchName = some "feat" ∧ c.branchName = some "feat" ∧
      c.isMainBranch = true) := by
  constructor
  · intro fuel allCommits branches pre post b t x hac hfuel hsplit hpre hb ht hxt
    refine ⟨_, processCommitGraph_acyclic fuel allCommits branches hac hfuel, ?_, ?_⟩
    · have hx : x ∈ (initialMap allCommits).map (fun e => e.1) := trail_mem_keys _ _ _ x hb
      obtain ⟨e, he, hex⟩ := List.mem_map.mp hx
      refine ⟨_, List.mem_map.mpr ⟨e, he, rfl⟩, ?_⟩
      rw [layoutOf_sha, ← initialMap_keyed allCommits e he]
      exact hex
    · intro n hn hnx
      obtain ⟨e, he, hen⟩ := List.mem_map.mp hn
      have hkey : e.1 = e.2.sha := initialMap_keyed allCommits e he
      have hsha : e.1 = x := by
        rw [← hnx, ← hen, layoutOf_sha, hkey]
      obtain ⟨c, _, hce⟩ := initialMap_mem allCommits e he
      have hcol : e.2.column = none := by rw [hce]; rfl
      have h := layoutOf_first_claim (mainBranchName branches) branches fuel
        (initialMap allCommits) x e.2 hcol pre post b t hsplit hpre hb ht hxt
      rw [hsha] at hen
      rw [← hen]
      obtain ⟨h1, ⟨lane, h2⟩, h3, h4⟩ := h
      exact ⟨h1, ⟨lane, h1.trans h2⟩, h3, h4⟩
  · exact ⟨{ rawCommit "A" ["C"] 3 with
        column := some (LaneValue.number 0), branchName := some "main", isMainBranch := true },
      { rawCommit "B" ["C"] 2 with
        column := some (LaneValue.number 1), branchName := some "feat" },
      { rawCommit "C" [] 1 with
        column := some (LaneValue.number 1), branchName := some "feat", isMainBranch := true },
      by decide, by decide⟩

/-- C2, on the worked example: `C` lies on the trail of `feat`, the first
non-trunk branch, and on the trail of `main`; it is returned with the lane and
name of `feat` and with the trunk mark. -/
theorem first_claim_survives_trunk_witness :
    ∃ out, processCommitGraph 3 exampleCommits exampleBranches = some out ∧
      (∃ n ∈ out, n.sha = "C") ∧
      ∀ n ∈ out, n.sha = "C" →
        n.column = branchColumns (mainBranchName exampleBranches) exampleBranches "feat" ∧
        (∃ lane, n.column = some lane) ∧
        n.branchName = some "feat" ∧
        n.isMainBranch = true :=
  first_claim_survives_trunk.1 3 exampleCommits exampleBranches []
    [] { name := "feat", commit := { sha := "B" } } { name := "main", commit := { sha := "A" } }
    "C" exampleCommits_acyclic (by decide) (by decide) (by simp) (by decide) (by decide)
    (by decide)

/-- C1: for every list of commit-list responses, in whatever order they
arrive, the assembled commits have pairwise distinct shas, their number is
the number of distinct shas received, and each of them is the first received
record with its sha. Whenever `processCommitGraph` returns on the assembled
commits it returns one node for each of them, in the same order and with the
same fetched fields, and it returns when the first-parent links form no
cycle. -/
theorem assembled_nodes_distinct (responses : List (Option (List Commit)))
    (branches : List BranchRef) :
    ((JSMap.values (assemble responses)).map (fun c => c.sha)).Nodup ∧
    (JSMap.values (assemble responses)).length
      = ((received responses).map (fun c => c.sha)).toFinset.card ∧
    (∀ c ∈ JSMap.values (assemble responses),
      (received responses).find? (fun d => d.sha == c.sha) = some c) ∧
    (∀ fuel out, processCommitGraph fuel (JSMap.values (assemble responses)) branches = some out →
      out.map Commit.fetched = (JSMap.values (assemble responses)).map Commit.fetched ∧
      (out.map (fun c => c.sha)).Nodup ∧
      out.length = ((received responses).map (fun c => c.sha)).toFinset.card) ∧
    (Acyclic (initialMap (JSMap.values (assemble responses))) →
      ∃ out, processCommitGraph (JSMap.values (assemble responses)).length
        (JSMap.values (assemble responses)) branches = some out) := by
  have hnd : ((JSMap.values (assemble responses)).map (fun c => c.sha)).Nodup := by
    rw [assemble_values_sha]
    exact assemble_keys_nodup responses
  have hlen : (JSMap.values (assemble responses)).length
      = ((received responses).map (fun c => c.sha)).toFinset.card := by
    rw [← assemble_length]
    simp [JSMap.values]
  refine ⟨hnd, hlen, ?_, ?_, ?_⟩
  · intro c hc
    obtain ⟨e, he, hec⟩ := List.mem_map.mp hc
    have hkey := assemble_keyed responses e he
    rw [← assemble_get, ← hec, ← hkey]
    exact JSMap.get_of_mem_nodup _ _ _ (assemble_keys_nodup responses) he
  · intro fuel out hout
    have h := processCommitGraph_some fuel _ branches out hout
    rw [initialMap_of_nodup _ hnd] at h
    have hf : out.map Commit.fetched
        = (JSMap.values (assemble responses)).map Commit.fetched := by
      rw [h, List.map_map, List.map_map]
      apply List.map_congr_left
      intro c _
      simp only [Function.comp]
      rw [layoutOf_fetched]
      rfl
    have hs : out.map (fun c => c.sha) = (JSMap.values (assemble responses)).map (fun c => c.sha) := by
      have := congrArg (List.map (fun t : String × List String × Int × String => t.1)) hf
      simpa [List.map_map, Function.comp, Commit.fetched] using this
    refine ⟨hf, by rw [hs]; exact hnd, ?_⟩
    rw [← hlen]
    have := congrArg List.length hf
    simpa using this
  · intro hac
    exact ⟨_, processCommitGraph_acyclic _ _ branches hac (le_refl _)⟩

end Reposcape

namespace Reposcape

/-- C1, on the worked example: four records arrive, three commits are
assembled, and `processCommitGraph` returns on them. -/
theorem assembled_nodes_distinct_witness :
    (received exampleResponses).length = 4 ∧
      (JSMap.values (assemble exampleResponses)).length = 3 ∧
      ∃ out, processCommitGraph (JSMap.values (assemble exampleResponses)).length
        (JSMap.values (assemble exampleResponses)) exampleBranches = some out :=
  ⟨by decide, by decide,
    (assembled_nodes_distinct exampleResponses exampleBranches).2.2.2.2
      (acyclic_of_rankedBy _ exampleRank (by decide))⟩

end Reposcape

namespace Reposcape

/-- C3, as stated, fails: in the list `main, f1, f2, f3` the second non-trunk
branch is `f2`, the lane loop gives it lane `-2`, and the stated lane of the
second non-trunk branch is `-1`. -/
theorem lanes_counterexample :
    nonTrunk (mainBranchName laneBranches) laneBranches
        = [{ name := "f1", commit := { sha := "B" } }, { name := "f2", commit := { sha := "C" } },
           { name := "f3", commit := { sha := "D" } }] ∧
      branchColumns (mainBranchName laneBranches) laneBranches "f2"
        = some (LaneValue.number (-2)) ∧
      specLaneOf 2 = -1 := by
  refine ⟨by decide, by decide, by decide⟩

/-- C3, amended: in a branch list with pairwise distinct names the trunk,
when its name is truthy and not `__proto__`, gets lane 0, and the `k`-th
non-trunk branch in list order, when its name is not `__proto__`, gets the
lane of magnitude `k`, positive when `k` is odd and negative when `k` is even
(`+1, -2, +3, -4, ...`). -/
theorem lanes_follow_position (branches : List BranchRef)
    (hnd : (branches.map (fun b => b.name)).Nodup) :
    (∀ m, mainBranchName branches = some m → truthy m = true → m ≠ "__proto__" →
      branchColumns (mainBranchName branches) branches m = some (LaneValue.number 0)) ∧
    ∀ (k : Nat) (hk : k < (nonTrunk (mainBranchName branches) branches).length),
      ((nonTrunk (mainBranchName branches) branches)[k]).name ≠ "__proto__" →
      branchColumns (mainBranchName branches) branches
          ((nonTrunk (mainBranchName branches) branches)[k]).name
        = some (LaneValue.number (laneOf (k + 1))) :=
  ⟨fun m hm ht hp => branchColumns_trunk branches m hm ht hp,
    fun k hk hp => branchColumns_nonTrunk branches hnd k hk hp⟩

/-- C3, amended, on the list `main, f1, f2, f3`: the lanes are 0 for the
trunk and `+1, -2, +3` for the other branches; and on the list `main,
__proto__, f2` the second non-trunk branch, `f2`, gets lane `-2`. -/
theorem lanes_follow_position_witness :
    (laneBranches.map (fun b => b.name)).Nodup ∧
      branchColumns (mainBranchName laneBranches) laneBranches "main"
        = some (LaneValue.number 0) ∧
      branchColumns (mainBranchName laneBranches) laneBranches "f1"
        = some (LaneValue.number 1) ∧
      branchColumns (mainBranchName laneBranches) laneBranches "f2"
        = some (LaneValue.number (-2)) ∧
      branchColumns (mainBranchName laneBranches) laneBranches "f3"
        = some (LaneValue.number 3) ∧
      branchColumns (mainBranchName protoBranches) protoBranches "f2"
        = some (LaneValue.number (-2)) :=
  ⟨by decide,
    (lanes_follow_position laneBranches (by decide)).1 "main" (by decide) (by decide)
      (by decide),
    (lanes_follow_position laneBranches (by decide)).2 0 (by decide) (by decide),
    (lanes_follow_position laneBranches (by decide)).2 1 (by decide) (by decide),
    (lanes_follow_position laneBranches (by decide)).2 2 (by decide) (by decide),
    (lanes_follow_position protoBranches (by decide)).2 1 (by decide) (by decide)⟩

/-- C8, as stated, fails: when the branch-list response is not `ok`, a state
that shows commits comes out of `handleFetch` with no commits shown, no
fetched commits and no selected commit. -/
theorem failed_fetch_counterexample :
    ∃ s, handleFetch 0 ["owner", "repo"] failingNetwork shownState = some s ∧
      s.commits ≠ shownState.commits ∧
      s.allFetchedCommits ≠ shownState.allFetchedCommits ∧
      s.selectedCommit ≠ shownState.selectedCommit :=
  ⟨{ shownState with commits := [], allFetchedCommits := [], selectedCommit := none,
                     alerts := [branchesFailedMessage] },
    by decide, by decide, by decide, by decide⟩

/-- C8, amended: when the URL has an owner and a repository and the
branch-list request fails (it is rejected, or its response is not `ok`),
`handleFetch` ends without a call of `processCommitGraph`, raises exactly one
message, and leaves the visualization state cleared: no commits shown, no
fetched commits, no selected commit; `isAnimating` is as before and
`isLoading` is false. -/
theorem failed_fetch_clears (fuel : Nat) (urlParts : List String) (net : Network)
    (s : AppState)
    (hurl : (!truthyOpt urlParts[0]? || !truthyOpt urlParts[1]?) = false)
    (hfail : ∀ allBranches, net.branches ≠ BranchesResponse.ok allBranches) :
    ∃ message, handleFetch fuel urlParts net s
      = some { commits := [], allFetchedCommits := [], isLoading := false,
               isAnimating := s.isAnimating, selectedCommit := none,
               alerts := s.alerts ++ [message], layoutCalls := s.layoutCalls } := by
  unfold handleFetch
  simp only [hurl, Bool.false_eq_true, if_false]
  cases hb : net.branches with
  | rejected message => exact ⟨message, rfl⟩
  | notOk => exact ⟨branchesFailedMessage, rfl⟩
  | ok allBranches => exact absurd hb (hfail allBranches)

/-- C8, amended, on the state that shows the worked example: one message,
no layout call, and a cleared state. -/
theorem failed_fetch_clears_witness :
    ∃ message, handleFetch 0 ["owner", "repo"] failingNetwork shownState
      = some { commits := [], allFetchedCommits := [], isLoading := false,
               isAnimating := shownState.isAnimating, selectedCommit := none,
               alerts := shownState.alerts ++ [message],
               layoutCalls := shownState.layoutCalls } :=
  failed_fetch_clears 0 ["owner", "repo"] failingNetwork shownState (by decide)
    (by intro allBranches h; cases h)

end Reposcape

namespace Reposcape

/-! ## The animation effect -/

theorem ticks_add (a b : Nat) (s : Session) :
    ticks (a + b) s = ((ticks b (ticks a s).1).1, (ticks a s).2 ++ (ticks b (ticks a s).1).2) := by
  induction a generalizing s with
  | zero => simp [ticks]
  | succ a ih =>
    have h : a + 1 + b = (a + b) + 1 := by omega
    rw [h]
    simp only [ticks, ih, List.append_assoc]

theorem runEffect_start (s : Session) (ha : s.app.isAnimating = true)
    (hM : 0 < s.app.allFetchedCommits.length) : runEffect s = revealing s.app 0 := by
  unfold runEffect revealing
  simp [ha, hM]

theorem tick_revealing (app : AppState) (i : Nat) (hi : i < app.allFetchedCommits.length) :
    tick (revealing app i)
      = (revealing app (i + 1), some (TickEvent.reveal (app.allFetchedCommits.take (i + 1)))) := by
  unfold tick revealing
  simp [hi]

theorem tick_last (app : AppState) :
    tick (revealing app app.allFetchedCommits.length) = (finished app, some TickEvent.completed) := by
  unfold tick revealing finished runEffect
  simp

theorem tick_finished (app : AppState) : tick (finished app) = (finished app, none) := rfl

theorem ticks_finished (app : AppState) (n : Nat) : ticks n (finished app) = (finished app, []) := by
  induction n with
  | zero => rfl
  | succ n ih => simp [ticks, tick_finished, ih]

theorem ticks_revealing (app : AppState) (n : Nat) :
    ∀ i, i + n ≤ app.allFetchedCommits.length →
      ticks n (revealing app i)
        = (revealing app (i + n),
            (List.range' i n).map (fun k => TickEvent.reveal (app.allFetchedCommits.take (k + 1)))) := by
  induction n with
  | zero => intro i _; rfl
  | succ n ih =>
    intro i hi
    have h1 : i < app.allFetchedCommits.length := by omega
    have h2 := ih (i + 1) (by omega)
    simp only [ticks, tick_revealing app i h1, h2, List.range'_succ, List.map_cons,
      Option.toList, List.singleton_append]
    rw [show i + 1 + n = i + (n + 1) by omega]

/-- The whole playback: `M` reveals, the completion, and nothing more. -/
theorem ticks_playback (app : AppState) (r : Nat) :
    ticks (app.allFetchedCommits.length + 1 + r) (revealing app 0)
      = (finished app,
          (List.range app.allFetchedCommits.length).map
              (fun k => TickEvent.reveal (app.allFetchedCommits.take (k + 1)))
            ++ [TickEvent.completed]) := by
  rw [ticks_add, ticks_add, ticks_revealing app _ 0 (by omega)]
  simp only [Nat.zero_add]
  have h1 : ticks 1 (revealing app app.allFetchedCommits.length)
      = (finished app, [TickEvent.completed]) := by
    simp [ticks, tick_last]
  rw [h1, ticks_finished, List.range_eq_range']
  simp

/-- C6: when `isAnimating` holds and there are `M ≥ 1` commits, the effect
resets the visible commits and starts the interval; the first `k ≤ M` ticks
produce `k` reveals, the `j`-th of the first `j` commits, and leave the first
`k` commits visible; after more than `M` ticks the events are these `M`
reveals followed by one completion, all commits are visible, `isAnimating` is
false and no interval runs. With no commit and no interval, the effect and
every tick after it change nothing. -/
theorem playback_runs_to_completion (s : Session) :
    (s.app.isAnimating = true → 0 < s.app.allFetchedCommits.length →
      (runEffect s).app.commits = [] ∧
      (runEffect s).timer = some 0 ∧
      (∀ k, k ≤ s.app.allFetchedCommits.length →
        (ticks k (runEffect s)).2
            = (List.range k).map
                (fun j => TickEvent.reveal (s.app.allFetchedCommits.take (j + 1))) ∧
          (ticks k (runEffect s)).1.app.commits = s.app.allFetchedCommits.take k) ∧
      (∀ n, s.app.allFetchedCommits.length < n →
        (ticks n (runEffect s)).2
            = (List.range s.app.allFetchedCommits.length).map
                (fun j => TickEvent.reveal (s.app.allFetchedCommits.take (j + 1)))
              ++ [TickEvent.completed] ∧
          (ticks n (runEffect s)).1.app.commits = s.app.allFetchedCommits ∧
          (ticks n (runEffect s)).1.app.isAnimating = false ∧
          (ticks n (runEffect s)).1.timer = none)) ∧
    (s.app.allFetchedCommits = [] → s.timer = none →
      runEffect s = s ∧ ∀ n, ticks n (runEffect s) = (s, [])) := by
  constructor
  · intro ha hM
    rw [runEffect_start s ha hM]
    refine ⟨rfl, rfl, ?_, ?_⟩
    · intro k hk
      rw [ticks_revealing s.app k 0 (by omega), List.range_eq_range']
      simp [revealing]
    · intro n hn
      obtain ⟨r, hr⟩ : ∃ r, n = s.app.allFetchedCommits.length + 1 + r := ⟨n - (s.app.allFetchedCommits.length + 1), by omega⟩
      rw [hr, ticks_playback]
      exact ⟨rfl, rfl, rfl, rfl⟩
  · intro hall htimer
    have h1 : runEffect s = s := by
      unfold runEffect
      simp only [hall, List.length_nil, gt_iff_lt, lt_self_iff_false, decide_False,
        Bool.and_false, Bool.false_eq_true, if_false]
      cases s
      simp only at htimer
      simp [htimer]
    refine ⟨h1, ?_⟩
    intro n
    rw [h1]
    induction n with
    | zero => rfl
    | succ n ih =>
      simp only [ticks]
      have ht : tick s = (s, none) := by
        unfold tick
        rw [htimer]
      rw [ht, ih]
      rfl

/-- C6, on the worked example: five ticks produce three reveals, of `[A]`,
`[A, B]` and `[A, B, C]`, then the completion, and nothing more. -/
theorem playback_runs_to_completion_witness :
    (ticks 5 (runEffect { app := { shownState with isAnimating := true }, timer := none })).2
      = [TickEvent.reveal [rawCommit "A" ["C"] 3],
         TickEvent.reveal [rawCommit "A" ["C"] 3, rawCommit "B" ["C"] 2],
         TickEvent.reveal [rawCommit "A" ["C"] 3, rawCommit "B" ["C"] 2, rawCommit "C" [] 1],
         TickEvent.completed] :=
  (((playback_runs_to_completion
    { app := { shownState with isAnimating := true }, timer := none }).1 rfl
      (by decide)).2.2.2 5 (by decide)).1

end Reposcape

namespace Reposcape

/-! ## The sort-and-index step -/

theorem indexFrom_length (l : List Commit) : ∀ start, (indexFrom start l).length = l.length := by
  induction l with
  | nil => intro start; rfl
  | cons c cs ih => intro start; simp [indexFrom, ih]

theorem indexFrom_index (l : List Commit) :
    ∀ start, (indexFrom start l).map (fun c => c.timelineIndex)
      = (List.range' start l.length).map some := by
  induction l with
  | nil => intro start; rfl
  | cons c cs ih =>
    intro start
    simp [indexFrom, ih, List.range'_succ]

theorem indexFrom_unindexed (l : List Commit) :
    ∀ start, (indexFrom start l).map Commit.unindexed = l.map Commit.unindexed := by
  induction l with
  | nil => intro start; rfl
  | cons c cs ih =>
    intro start
    simp [indexFrom, ih, Commit.unindexed]

theorem indexFrom_date (l : List Commit) :
    ∀ start, (indexFrom start l).map (fun c => c.date) = l.map (fun c => c.date) := by
  induction l with
  | nil => intro start; rfl
  | cons c cs ih =>
    intro start
    simp [indexFrom, ih]

theorem indexFrom_filter (d : Int) (l : List Commit) :
    ∀ start, ((indexFrom start l).filter (fun c => c.date == d)).map Commit.unindexed
      = (l.filter (fun c => c.date == d)).map Commit.unindexed := by
  induction l with
  | nil => intro start; rfl
  | cons c cs ih =>
    intro start
    by_cases hc : c.date = d
    · simp [indexFrom, List.filter_cons, hc, ih, Commit.unindexed]
    · simp [indexFrom, List.filter_cons, hc, ih]

theorem orderedInsert_filter (d : Int) (a : Commit) (t : List Commit) :
    (List.orderedInsert (fun a b => compareDates a b ≤ 0) a t).filter (fun c => c.date == d)
      = (a :: t).filter (fun c => c.date == d) := by
  induction t with
  | nil => rfl
  | cons b t ih =>
    rw [List.orderedInsert]
    by_cases hr : compareDates a b ≤ 0
    · rw [if_pos hr]
    · rw [if_neg hr, List.filter_cons, ih]
      have hlt : a.date < b.date := by
        unfold compareDates at hr
        omega
      by_cases ha : a.date = d
      · have hb : ¬ b.date = d := by omega
        simp [List.filter_cons, ha, hb]
      · simp [List.filter_cons, ha]

theorem sortCommits_filter (d : Int) (l : List Commit) :
    (sortCommits l).filter (fun c => c.date == d) = l.filter (fun c => c.date == d) := by
  induction l with
  | nil => rfl
  | cons a l ih =>
    unfold sortCommits at ih ⊢
    rw [List.insertionSort, orderedInsert_filter, List.filter_cons, List.filter_cons, ih]

theorem sortCommits_sorted (l : List Commit) :
    (sortCommits l).Pairwise (fun a b => b.date ≤ a.date) := by
  haveI : IsTotal Commit (fun a b => compareDates a b ≤ 0) :=
    ⟨fun a b => by unfold compareDates; omega⟩
  haveI : IsTrans Commit (fun a b => compareDates a b ≤ 0) :=
    ⟨fun a b c h1 h2 => by unfold compareDates at *; omega⟩
  have h := List.sorted_insertionSort (fun a b => compareDates a b ≤ 0) l
  unfold sortCommits
  refine List.Pairwise.imp ?_ h
  intro a b hab
  unfold compareDates at hab
  omega

theorem sortCommits_perm (l : List Commit) : (sortCommits l).Perm l :=
  List.perm_insertionSort _ l

/-- C5: for every list of `N` final commits, after the sort-and-index step
there are `N` commits, the same as before up to the timeline index; the
timeline indices, in list order, are `0, ..., N-1`; the date does not increase
along the list; and the commits of each date are in the order in which they
were before the step. -/
theorem timeline_is_dense_and_stable (finalCommits : List Commit) :
    (sortAndIndex finalCommits).length = finalCommits.length ∧
    (sortAndIndex finalCommits).map (fun c => c.timelineIndex)
      = (List.range finalCommits.length).map some ∧
    ((sortAndIndex finalCommits).map Commit.unindexed).Perm
      (finalCommits.map Commit.unindexed) ∧
    ((sortAndIndex finalCommits).map (fun c => c.date)).Pairwise (fun d1 d2 => d2 ≤ d1) ∧
    ∀ d : Int,
      ((sortAndIndex finalCommits).filter (fun c => c.date == d)).map Commit.unindexed
        = (finalCommits.filter (fun c => c.date == d)).map Commit.unindexed := by
  have hlen : (sortCommits finalCommits).length = finalCommits.length :=
    (sortCommits_perm finalCommits).length_eq
  unfold sortAndIndex
  refine ⟨?_, ?_, ?_, ?_, ?_⟩
  · rw [indexFrom_length, hlen]
  · rw [indexFrom_index, hlen, List.range_eq_range']
  · rw [indexFrom_unindexed]
    exact (sortCommits_perm finalCommits).map _
  · rw [indexFrom_date, List.pairwise_map]
    exact sortCommits_sorted finalCommits
  · intro d
    rw [indexFrom_filter, sortCommits_filter]

end Reposcape

namespace Reposcape

theorem branchColumns_congr (main : Option String) (b1 b2 : List BranchRef)
    (h : nonTrunk main b1 = nonTrunk main b2) :
    branchColumns main b1 = branchColumns main b2 := by
  unfold branchColumns
  rw [foldl_laneStep_nonTrunk main b1, foldl_laneStep_nonTrunk main b2, h]

/-- C4, as stated, fails: the lists `main, f1, f2, f3` and `main, f2, f1, f3`
are permutations of each other with the same trunk, and over the commits `A`,
`B`, `C`, `D` the commit `B` gets column 1 under the first and column -2
under the second, and `C` gets the name `f1` under the first and `f2` under
the second. -/
theorem reordering_counterexample :
    laneBranches.Perm swappedLaneBranches ∧
      mainBranchName laneBranches = mainBranchName swappedLaneBranches ∧
      ∃ out1 out2, processCommitGraph 4 orphanCommits laneBranches = some out1 ∧
        processCommitGraph 4 orphanCommits swappedLaneBranches = some out2 ∧
        (nodeOf out1 "B").map (fun n => n.column) = some (some (LaneValue.number 1)) ∧
        (nodeOf out2 "B").map (fun n => n.column) = some (some (LaneValue.number (-2))) ∧
        (nodeOf out1 "C").map (fun n => n.branchName) = some (some "f1") ∧
        (nodeOf out2 "C").map (fun n => n.branchName) = some (some "f2") := by
  refine ⟨List.Perm.cons _ (List.Perm.swap _ _ _), by decide, ?_⟩
  refine ⟨(processCommitGraph 4 orphanCommits laneBranches).getD [],
    (processCommitGraph 4 orphanCommits swappedLaneBranches).getD [], ?_⟩
  refine ⟨by decide, by decide, by decide, by decide, by decide, by decide⟩

/-- C4, amended: two branch lists with the same trunk name, the same
non-trunk branches in the same order and the same trunk entries (lists that
differ only in where the trunk stands) give the same result of
`processCommitGraph`, which is returned when the first-parent links form no
cycle and the fuel covers the commits. -/
theorem trunk_position_is_irrelevant (fuel : Nat) (allCommits : List Commit)
    (b1 b2 : List BranchRef)
    (hmain : mainBranchName b1 = mainBranchName b2)
    (hnon : nonTrunk (mainBranchName b1) b1 = nonTrunk (mainBranchName b2) b2)
    (htrunk : trunkOnly (mainBranchName b1) b1 = trunkOnly (mainBranchName b2) b2) :
    processCommitGraph fuel allCommits b1 = processCommitGraph fuel allCommits b2 ∧
      (Acyclic (initialMap allCommits) → allCommits.length ≤ fuel →
        ∃ out, processCommitGraph fuel allCommits b1 = some out ∧
          processCommitGraph fuel allCommits b2 = some out) := by
  have heq : processCommitGraph fuel allCommits b1 = processCommitGraph fuel allCommits b2 := by
    unfold processCommitGraph orderedBranches
    simp only
    rw [← hmain] at hnon htrunk ⊢
    rw [branchColumns_congr _ b1 b2 hnon, hnon, htrunk]
  refine ⟨heq, ?_⟩
  intro hac hfuel
  refine ⟨_, processCommitGraph_acyclic fuel allCommits b1 hac hfuel, ?_⟩
  rw [← heq]
  exact processCommitGraph_acyclic fuel allCommits b1 hac hfuel

/-- C4, amended, on the worked example: with the trunk first or last the
result is the same. -/
theorem trunk_position_is_irrelevant_witness :
    processCommitGraph 3 exampleCommits exampleBranches
      = processCommitGraph 3 exampleCommits movedTrunkBranches :=
  (trunk_position_is_irrelevant 3 exampleCommits exampleBranches movedTrunkBranches
    (by decide) (by decide) (by decide)).1

end Reposcape

namespace Reposcape

/-! ## Independence of the order of the entries -/

theorem detailLoop_eq (detail : String → Option Commit) (graphMap : JSMap Commit)
    (g : List Commit) :
    ∀ (rounds i : Nat) (acc : List Commit), g.length ≤ i + rounds →
      detailLoop detail graphMap g rounds i acc
        = acc ++ settleBatch detail graphMap (g.drop i) := by
  intro rounds
  induction rounds with
  | zero =>
    intro i acc h
    have h0 : g.drop i = [] := List.drop_eq_nil_of_le (by omega)
    simp [detailLoop, h0, settleBatch]
  | succ rounds ih =>
    intro i acc h
    unfold detailLoop
    by_cases hi : i < g.length
    · rw [if_pos hi, ih _ _ (by unfold batchSize; omega), List.append_assoc]
      congr 1
      unfold settleBatch
      rw [← List.filterMap_append]
      congr 1
      rw [← List.drop_drop]
      exact List.take_append_drop batchSize (g.drop i)
    · rw [if_neg hi]
      have h0 : g.drop i = [] := List.drop_eq_nil_of_le (by omega)
      simp [h0, settleBatch]

/-- The detail loop pushes the detailed commits of the whole graph, in the
order of the graph. -/
theorem fetchDetails_eq (detail : String → Option Commit) (g : List Commit) :
    fetchDetails detail g
      = settleBatch detail (JSMap.ofEntries (g.map (fun c => (c.sha, c)))) g := by
  unfold fetchDetails
  rw [detailLoop_eq _ _ _ _ _ _ (by omega)]
  simp

theorem perm_get {m1 m2 : JSMap Commit} (hp : m1.Perm m2)
    (hnd : (m1.map (fun e => e.1)).Nodup) (x : String) :
    JSMap.get m1 x = JSMap.get m2 x := by
  have hnd2 : (m2.map (fun e => e.1)).Nodup := ((hp.map _).nodup_iff).mp hnd
  cases h1 : JSMap.get m1 x with
  | some v =>
    have hmem := JSMap.get_some_mem m1 x v h1
    exact (JSMap.get_of_mem_nodup m2 x v hnd2 (hp.mem_iff.mp hmem)).symm
  | none =>
    cases h2 : JSMap.get m2 x with
    | none => rfl
    | some v =>
      have hmem := JSMap.get_some_mem m2 x v h2
      have := JSMap.get_of_mem_nodup m1 x v hnd (hp.mem_iff.mpr hmem)
      rw [h1] at this
      simp at this

theorem perm_firstParents {m1 m2 : JSMap Commit} (hp : m1.Perm m2)
    (hnd : (m1.map (fun e => e.1)).Nodup) : firstParents m1 = firstParents m2 := by
  funext x
  unfold firstParents
  rw [perm_get hp hnd x]

theorem layoutOf_congr (main : Option String) (branches : List BranchRef) (fuel : Nat)
    {cm1 cm2 : JSMap Commit} (h : firstParents cm1 = firstParents cm2) :
    layoutOf main branches fuel cm1 = layoutOf main branches fuel cm2 := by
  funext x n
  unfold layoutOf
  congr 2
  funext n b
  unfold stamp
  rw [trail_congr h]

theorem ofEntries_of_nodup (g : List Commit) (hnd : (g.map (fun c => c.sha)).Nodup) :
    JSMap.ofEntries (g.map (fun c => (c.sha, c))) = g.map (fun c => (c.sha, c)) := by
  unfold JSMap.ofEntries
  rw [foldl_set_fresh]
  · simp
  · simpa [List.map_map] using hnd

/-- The result of `processCommitGraph` on two orders of the same commits with
distinct shas: the same nodes, in the order of the commits. -/
theorem processCommitGraph_perm (fuel : Nat) (a1 a2 : List Commit) (branches : List BranchRef)
    (hp : a1.Perm a2) (hnd : (a1.map (fun c => c.sha)).Nodup)
    (hac : Acyclic (initialMap a1)) (hfuel : a1.length ≤ fuel) :
    ∃ g1 g2, processCommitGraph fuel a1 branches = some g1 ∧
      processCommitGraph fuel a2 branches = some g2 ∧ g1.Perm g2 ∧
      (g1.map (fun c => c.sha)).Nodup := by
  have hnd2 : (a2.map (fun c => c.sha)).Nodup := ((hp.map _).nodup_iff).mp hnd
  have hm1 := initialMap_of_nodup a1 hnd
  have hm2 := initialMap_of_nodup a2 hnd2
  have hpm : (initialMap a1).Perm (initialMap a2) := by
    rw [hm1, hm2]
    exact hp.map _
  have hfp : firstParents (initialMap a1) = firstParents (initialMap a2) :=
    perm_firstParents hpm (initialMap_keys_nodup a1)
  have h1 := processCommitGraph_acyclic fuel a1 branches hac hfuel
  have h2 := processCommitGraph_eq fuel a2 branches (by
    intro b _
    rw [← chain_congr hfp, ← trail_congr hfp]
    exact chain_terminates _ hac fuel (le_trans (initialMap_length_le a1) hfuel) _)
  rw [← layoutOf_congr _ _ _ hfp] at h2
  refine ⟨_, _, h1, h2, hpm.map _, ?_⟩
  rw [List.map_map]
  have hk : (initialMap a1).map ((fun c : Commit => c.sha) ∘ fun e : String × Commit =>
      layoutOf (mainBranchName branches) branches fuel (initialMap a1) e.1 e.2)
      = (initialMap a1).map (fun e => e.1) := by
    apply List.map_congr_left
    intro e he
    simp only [Function.comp, layoutOf_sha]
    exact (initialMap_keyed a1 e he).symm
  rw [hk]
  exact initialMap_keys_nodup a1

end Reposcape

namespace Reposcape

theorem received_perm {l1 l2 : List (Option (List Commit))} (hp : l1.Perm l2) :
    (received l1).Perm (received l2) :=
  (hp.filterMap id).flatten

theorem assemble_mem_iff (l : List (Option (List Commit)))
    (hcons : ∀ c ∈ received l, ∀ d ∈ received l, c.sha = d.sha → c = d)
    (e : String × Commit) :
    e ∈ assemble l ↔ e.2 ∈ received l ∧ e.1 = e.2.sha := by
  constructor
  · intro he
    have hkey := assemble_keyed l e he
    have hget := JSMap.get_of_mem_nodup (assemble l) e.1 e.2 (assemble_keys_nodup l) he
    rw [assemble_get] at hget
    exact ⟨List.mem_of_find?_eq_some hget, hkey⟩
  · rintro ⟨hmem, hkey⟩
    have hsome : ((received l).find? (fun c => c.sha == e.1)).isSome = true :=
      List.find?_isSome.mpr ⟨e.2, hmem, by simp [hkey]⟩
    cases hf : (received l).find? (fun c => c.sha == e.1) with
    | none => rw [hf] at hsome; simp at hsome
    | some v =>
      have hv1 : v ∈ received l := List.mem_of_find?_eq_some hf
      have hv2 : v.sha = e.1 := by simpa using List.find?_some hf
      have hve : v = e.2 := hcons v hv1 e.2 hmem (hv2.trans hkey)
      have hget : JSMap.get (assemble l) e.1 = some e.2 := by
        rw [assemble_get, hf, hve]
      exact JSMap.get_some_mem _ _ _ hget

/-- The assembled entries are the same, up to order, for every order of
arrival, when the records of one sha are equal. -/
theorem assemble_perm (l1 l2 : List (Option (List Commit))) (hp : l1.Perm l2)
    (hcons : ∀ c ∈ received l1, ∀ d ∈ received l1, c.sha = d.sha → c = d) :
    (assemble l1).Perm (assemble l2) := by
  have hr := received_perm hp
  have hcons2 : ∀ c ∈ received l2, ∀ d ∈ received l2, c.sha = d.sha → c = d :=
    fun c hc d hd h => hcons c (hr.mem_iff.mpr hc) d (hr.mem_iff.mpr hd) h
  rw [List.perm_ext_iff_of_nodup (List.Nodup.of_map _ (assemble_keys_nodup l1))
    (List.Nodup.of_map _ (assemble_keys_nodup l2))]
  intro e
  rw [assemble_mem_iff l1 hcons, assemble_mem_iff l2 hcons2, hr.mem_iff]

theorem fetchDetails_perm (detail : String → Option Commit) (g1 g2 : List Commit)
    (hp : g1.Perm g2) (hnd : (g1.map (fun c => c.sha)).Nodup) :
    (fetchDetails detail g1).Perm (fetchDetails detail g2) := by
  have hnd2 : (g2.map (fun c => c.sha)).Nodup := ((hp.map _).nodup_iff).mp hnd
  rw [fetchDetails_eq, fetchDetails_eq, ofEntries_of_nodup g1 hnd, ofEntries_of_nodup g2 hnd2]
  have hkeys : ((g1.map (fun c => (c.sha, c))).map (fun e => e.1)).Nodup := by
    simpa [List.map_map] using hnd
  have hatt : attachLayout (g1.map (fun c => (c.sha, c)))
      = attachLayout (g2.map (fun c => (c.sha, c))) := by
    funext d
    unfold attachLayout
    rw [perm_get (hp.map _) hkeys]
  unfold settleBatch
  rw [hatt]
  exact hp.filterMap _

theorem sortCommits_eq_of_perm (f1 f2 : List Commit) (hp : f1.Perm f2)
    (hd : (f1.map (fun c => c.date)).Nodup) : sortCommits f1 = sortCommits f2 := by
  have hp12 : (sortCommits f1).Perm (sortCommits f2) :=
    ((sortCommits_perm f1).trans hp).trans (sortCommits_perm f2).symm
  refine List.Perm.eq_of_sorted ?_ (sortCommits_sorted f1) (sortCommits_sorted f2) hp12
  intro a b ha hb hab hba
  have ha1 : a ∈ f1 := (sortCommits_perm f1).mem_iff.mp ha
  have hb1 : b ∈ f1 := hp.mem_iff.mpr ((sortCommits_perm f2).mem_iff.mp hb)
  exact List.inj_on_of_nodup_map hd ha1 hb1 (le_antisymm hba hab)

theorem sortAndIndex_perm (f1 f2 : List Commit) (hp : f1.Perm f2) :
    ((sortAndIndex f1).map Commit.unindexed).Perm ((sortAndIndex f2).map Commit.unindexed) ∧
      (((sortAndIndex f1).map (fun c => c.date)).Nodup → sortAndIndex f1 = sortAndIndex f2) := by
  unfold sortAndIndex
  constructor
  · rw [indexFrom_unindexed, indexFrom_unindexed]
    exact (((sortCommits_perm f1).trans hp).trans (sortCommits_perm f2).symm).map _
  · intro hd
    rw [indexFrom_date] at hd
    have hd1 : (f1.map (fun c => c.date)).Nodup :=
      (((sortCommits_perm f1).map _).nodup_iff).mp hd
    rw [sortCommits_eq_of_perm f1 f2 hp hd1]

end Reposcape

namespace Reposcape

/-! ## The timeline indices of the commits of one date -/

theorem indexFrom_append (a b : List Commit) :
    ∀ start, indexFrom start (a ++ b) = indexFrom start a ++ indexFrom (start + a.length) b := by
  induction a with
  | nil => intro start; simp [indexFrom]
  | cons c cs ih =>
    intro start
    have h : start + (cs.length + 1) = start + 1 + cs.length := by omega
    show { c with timelineIndex := some start } :: indexFrom (start + 1) (cs ++ b)
      = { c with timelineIndex := some start } :: indexFrom (start + 1) cs
          ++ indexFrom (start + (cs.length + 1)) b
    rw [ih, h]
    rfl

theorem indexFrom_filter_all (d : Int) (l : List Commit) (h : ∀ c ∈ l, c.date = d) :
    ∀ start, (indexFrom start l).filter (fun c => c.date == d) = indexFrom start l := by
  induction l with
  | nil => intro start; rfl
  | cons c cs ih =>
    intro start
    have hc : c.date = d := h c (List.mem_cons_self _ _)
    simp only [indexFrom, List.filter_cons, hc, beq_self_eq_true, if_true]
    rw [ih (fun x hx => h x (List.mem_cons_of_mem _ hx))]

theorem indexFrom_filter_none (d : Int) (l : List Commit) (h : ∀ c ∈ l, c.date ≠ d) :
    ∀ start, (indexFrom start l).filter (fun c => c.date == d) = [] := by
  induction l with
  | nil => intro start; rfl
  | cons c cs ih =>
    intro start
    have hc : c.date ≠ d := h c (List.mem_cons_self _ _)
    simp only [indexFrom, List.filter_cons, beq_iff_eq, hc, if_false]
    exact ih (fun x hx => h x (List.mem_cons_of_mem _ hx)) _

/-- A list with non-increasing dates is its commits after `d`, then those of
`d`, then those before `d`. -/
theorem sorted_split (d : Int) (l : List Commit)
    (hs : l.Pairwise (fun a b => b.date ≤ a.date)) :
    l = l.filter (fun c => decide (d < c.date)) ++ l.filter (fun c => c.date == d)
      ++ l.filter (fun c => decide (c.date < d)) := by
  induction l with
  | nil => rfl
  | cons a l ih =>
    rw [List.pairwise_cons] at hs
    have ih2 := ih hs.2
    rcases lt_trichotomy d a.date with h | h | h
    · have e1 : (a :: l).filter (fun c => decide (d < c.date))
          = a :: l.filter (fun c => decide (d < c.date)) := by
        simp [List.filter_cons, h]
      have e2 : (a :: l).filter (fun c => c.date == d) = l.filter (fun c => c.date == d) := by
        have h1 : ¬ a.date = d := by omega
        simp [List.filter_cons, h1]
      have e3 : (a :: l).filter (fun c => decide (c.date < d))
          = l.filter (fun c => decide (c.date < d)) := by
        have h2 : ¬ a.date < d := by omega
        simp [List.filter_cons, h2]
      rw [e1, e2, e3, List.cons_append, List.cons_append]
      exact congrArg (List.cons a) ih2
    · have hG : l.filter (fun c => decide (d < c.date)) = [] := by
        rw [List.filter_eq_nil_iff]
        intro b hb
        have := hs.1 b hb
        simp only [decide_eq_true_eq]
        omega
      have e1 : (a :: l).filter (fun c => decide (d < c.date)) = [] := by
        have h1 : ¬ d < a.date := by omega
        simp [List.filter_cons, h1, hG]
      have e2 : (a :: l).filter (fun c => c.date == d)
          = a :: l.filter (fun c => c.date == d) := by
        simp [List.filter_cons, h.symm]
      have e3 : (a :: l).filter (fun c => decide (c.date < d))
          = l.filter (fun c => decide (c.date < d)) := by
        have h2 : ¬ a.date < d := by omega
        simp [List.filter_cons, h2]
      rw [hG, List.nil_append] at ih2
      rw [e1, e2, e3, List.nil_append, List.cons_append]
      exact congrArg (List.cons a) ih2
    · have hlt : ∀ b ∈ l, b.date < d := fun b hb => by have := hs.1 b hb; omega
      have hG : l.filter (fun c => decide (d < c.date)) = [] := by
        rw [List.filter_eq_nil_iff]
        intro b hb
        have := hlt b hb
        simp only [decide_eq_true_eq]
        omega
      have hE : l.filter (fun c => c.date == d) = [] := by
        rw [List.filter_eq_nil_iff]
        intro b hb
        have := hlt b hb
        simp only [beq_iff_eq]
        omega
      have e1 : (a :: l).filter (fun c => decide (d < c.date)) = [] := by
        have h1 : ¬ d < a.date := by omega
        simp [List.filter_cons, h1, hG]
      have e2 : (a :: l).filter (fun c => c.date == d) = [] := by
        have h1 : ¬ a.date = d := by omega
        simp [List.filter_cons, h1, hE]
      have e3 : (a :: l).filter (fun c => decide (c.date < d))
          = a :: l.filter (fun c => decide (c.date < d)) := by
        simp [List.filter_cons, h]
      rw [hG, hE, List.nil_append, List.nil_append] at ih2
      rw [e1, e2, e3, List.nil_append, List.nil_append]
      exact congrArg (List.cons a) ih2

/-- The commits of one date after the sort-and-index step: the commits of
that date in their order before the step, with the timeline indices that
follow the number of commits of a later date. -/
theorem sortAndIndex_block (d : Int) (f : List Commit) :
    (sortAndIndex f).filter (fun c => c.date == d)
      = indexFrom (f.filter (fun c => decide (d < c.date))).length
          (f.filter (fun c => c.date == d)) := by
  have hsplit := sorted_split d (sortCommits f) (sortCommits_sorted f)
  have hG : ((sortCommits f).filter (fun c => decide (d < c.date))).length
      = (f.filter (fun c => decide (d < c.date))).length :=
    ((sortCommits_perm f).filter _).length_eq
  have hE := sortCommits_filter d f
  unfold sortAndIndex
  rw [hsplit, indexFrom_append, indexFrom_append, List.filter_append, List.filter_append,
    indexFrom_filter_none, indexFrom_filter_all, indexFrom_filter_none]
  · simp only [List.nil_append, List.append_nil, Nat.zero_add]
    rw [hG, hE]
  · intro c hc
    have := (List.mem_filter.mp hc).2
    simp only [decide_eq_true_eq] at this
    omega
  · intro c hc
    simpa using (List.mem_filter.mp hc).2
  · intro c hc
    have := (List.mem_filter.mp hc).2
    simp only [decide_eq_true_eq] at this
    omega

/-- A final commit whose date no other final commit has is the same, timeline
index included, for two orders of the same commits. -/
theorem sortAndIndex_unique_date (f1 f2 : List Commit) (hp : f1.Perm f2) (c : Commit)
    (hc : c ∈ sortAndIndex f1)
    (hu : ∀ c2 ∈ sortAndIndex f1, c2.date = c.date → c2 = c) :
    c ∈ sortAndIndex f2 := by
  have hg : (f1.filter (fun x => decide (c.date < x.date))).length
      = (f2.filter (fun x => decide (c.date < x.date))).length := (hp.filter _).length_eq
  have he : (f1.filter (fun x => x.date == c.date)).Perm (f2.filter (fun x => x.date == c.date)) :=
    hp.filter _
  have hb1 := sortAndIndex_block c.date f1
  have hb2 := sortAndIndex_block c.date f2
  rw [← hg] at hb2
  have hcb : c ∈ (sortAndIndex f1).filter (fun x => x.date == c.date) :=
    List.mem_filter.mpr ⟨hc, by simp⟩
  have hsub : ∀ x ∈ (sortAndIndex f1).filter (fun x => x.date == c.date), x = c := by
    intro x hx
    have hx2 := List.mem_filter.mp hx
    exact hu x hx2.1 (by simpa using hx2.2)
  rw [hb1] at hcb hsub
  generalize (f1.filter (fun x => decide (c.date < x.date))).length = g at hb2 hcb hsub
  cases hE : f1.filter (fun x => x.date == c.date) with
  | nil =>
    rw [hE] at hcb
    simp [indexFrom] at hcb
  | cons a rest =>
    cases rest with
    | nil =>
      rw [hE] at he
      have hE2 : f2.filter (fun x => x.date == c.date) = [a] :=
        List.perm_singleton.mp he.symm
      have hmem : c ∈ (sortAndIndex f2).filter (fun x => x.date == c.date) := by
        rw [hb2, hE2, ← hE]
        exact hcb
      exact (List.mem_filter.mp hmem).1
    | cons b rest2 =>
      exfalso
      rw [hE] at hsub
      have h1 : ({ a with timelineIndex := some g } : Commit) = c :=
        hsub _ (by simp [indexFrom])
      have h2 : ({ b with timelineIndex := some (g + 1) } : Commit) = c :=
        hsub _ (by simp [indexFrom])
      have h3 := congrArg Commit.timelineIndex (h1.trans h2.symm)
      simp at h3

theorem sortAndIndex_dates_eq (f1 f2 : List Commit) (hp : f1.Perm f2) :
    (sortAndIndex f1).map (fun c => c.timelineIndex)
        = (sortAndIndex f2).map (fun c => c.timelineIndex) ∧
      (sortAndIndex f1).map (fun c => c.date) = (sortAndIndex f2).map (fun c => c.date) := by
  unfold sortAndIndex
  constructor
  · rw [indexFrom_index, indexFrom_index, (sortCommits_perm f1).length_eq,
      (sortCommits_perm f2).length_eq, hp.length_eq]
  · rw [indexFrom_date, indexFrom_date]
    have hp12 : ((sortCommits f1).map (fun c => c.date)).Perm
        ((sortCommits f2).map (fun c => c.date)) :=
      (((sortCommits_perm f1).trans hp).trans (sortCommits_perm f2).symm).map _
    refine @List.Perm.eq_of_sorted Int (fun d1 d2 => d2 ≤ d1) _ _ ?_ ?_ ?_ hp12
    · intro a b _ _ hab hba
      exact le_antisymm hba hab
    · rw [List.pairwise_map]
      exact sortCommits_sorted f1
    · rw [List.pairwise_map]
      exact sortCommits_sorted f2

/-- C9, as stated, fails: the commits `A` and `B` have the same date; when the
commit list of `main` arrives first `A` gets timeline index 0, and when the
commit list of `feat` arrives first `A` gets timeline index 1. -/
theorem arrival_order_counterexample :
    tieNetwork.branches = tieNetworkSwapped.branches ∧
      tieNetwork.commitLists.Perm tieNetworkSwapped.commitLists ∧
      ∃ s1 s2, handleFetch 2 ["owner", "repo"] tieNetwork idleState = some s1 ∧
        handleFetch 2 ["owner", "repo"] tieNetworkSwapped idleState = some s2 ∧
        (nodeOf s1.allFetchedCommits "A").map (fun n => n.timelineIndex) = some (some 0) ∧
        (nodeOf s2.allFetchedCommits "A").map (fun n => n.timelineIndex) = some (some 1) := by
  refine ⟨rfl, List.Perm.swap _ _ _, ?_⟩
  refine ⟨(handleFetch 2 ["owner", "repo"] tieNetwork idleState).getD idleState,
    (handleFetch 2 ["owner", "repo"] tieNetworkSwapped idleState).getD idleState, ?_⟩
  refine ⟨by decide, by decide, by decide, by decide⟩

/-- C9, amended: take two runs of `handleFetch` with the same branch list and
detail responses whose commit-list responses are the same up to the order of
arrival, the records of one sha being equal, the first-parent links forming
no cycle and the fuel covering the commits. Both runs return and agree on the
state outside the final list. Their final lists hold the same commits with
the same column, branch name and trunk mark, up to order and timeline index;
at every position they have the same timeline index and the same date; for
every date, the commits of that date are the same up to order; every final
commit whose date no other final commit has is in both final lists with the
same timeline index; and when no two final commits have the same date the two
final states are equal. -/
theorem arrival_order_up_to_ties (fuel : Nat) (urlParts : List String) (net1 net2 : Network)
    (s : AppState)
    (hb : net1.branches = net2.branches) (hd : net1.detail = net2.detail)
    (hperm : net1.commitLists.Perm net2.commitLists)
    (hcons : ∀ c ∈ received net1.commitLists, ∀ d ∈ received net1.commitLists,
      c.sha = d.sha → c = d)
    (hac : Acyclic (initialMap (JSMap.values (assemble net1.commitLists))))
    (hfuel : (JSMap.values (assemble net1.commitLists)).length ≤ fuel) :
    ∃ s1 s2, handleFetch fuel urlParts net1 s = some s1 ∧
      handleFetch fuel urlParts net2 s = some s2 ∧
      (s1.allFetchedCommits.map Commit.unindexed).Perm
        (s2.allFetchedCommits.map Commit.unindexed) ∧
      { s1 with allFetchedCommits := [] } = { s2 with allFetchedCommits := [] } ∧
      s1.allFetchedCommits.map (fun c => c.timelineIndex)
        = s2.allFetchedCommits.map (fun c => c.timelineIndex) ∧
      s1.allFetchedCommits.map (fun c => c.date)
        = s2.allFetchedCommits.map (fun c => c.date) ∧
      (∀ d : Int,
        ((s1.allFetchedCommits.filter (fun c => c.date == d)).map Commit.unindexed).Perm
          ((s2.allFetchedCommits.filter (fun c => c.date == d)).map Commit.unindexed)) ∧
      (∀ c ∈ s1.allFetchedCommits,
        (∀ c2 ∈ s1.allFetchedCommits, c2.date = c.date → c2 = c) →
          c ∈ s2.allFetchedCommits) ∧
      ((s1.allFetchedCommits.map (fun c => c.date)).Nodup → s1 = s2) := by
  unfold handleFetch
  simp only
  by_cases hurl : (!truthyOpt urlParts[0]? || !truthyOpt urlParts[1]?) = true
  · simp only [hurl, if_true]
    exact ⟨_, _, rfl, rfl, List.Perm.refl _, rfl, rfl, rfl, fun _ => List.Perm.refl _,
      fun c hc _ => hc, fun _ => rfl⟩
  · simp only [hurl, Bool.false_eq_true, if_false]
    rw [← hb, ← hd]
    cases hbr : net1.branches with
    | rejected message =>
      exact ⟨_, _, rfl, rfl, List.Perm.refl _, rfl, rfl, rfl, fun _ => List.Perm.refl _,
        fun c hc _ => hc, fun _ => rfl⟩
    | notOk =>
      exact ⟨_, _, rfl, rfl, List.Perm.refl _, rfl, rfl, rfl, fun _ => List.Perm.refl _,
        fun c hc _ => hc, fun _ => rfl⟩
    | ok allBranches =>
      simp only
      have hpa : (JSMap.values (assemble net1.commitLists)).Perm
          (JSMap.values (assemble net2.commitLists)) :=
        (assemble_perm _ _ hperm hcons).map _
      have hnd : ((JSMap.values (assemble net1.commitLists)).map (fun c => c.sha)).Nodup := by
        rw [assemble_values_sha]
        exact assemble_keys_nodup _
      obtain ⟨g1, g2, h1, h2, hg, hgnd⟩ :=
        processCommitGraph_perm fuel _ _ (allBranches.take 10) hpa hnd hac hfuel
      rw [h1, h2]
      simp only
      have hf := fetchDetails_perm net1.detail g1 g2 hg hgnd
      have hs := sortAndIndex_perm _ _ hf
      have hq := sortAndIndex_dates_eq _ _ hf
      refine ⟨_, _, rfl, rfl, hs.1, rfl, hq.1, hq.2, ?_, ?_, ?_⟩
      · intro d
        simp only
        rw [sortAndIndex_block, sortAndIndex_block, indexFrom_unindexed, indexFrom_unindexed]
        exact (hf.filter _).map _
      · intro c hc hu
        exact sortAndIndex_unique_date _ _ hf c hc hu
      · intro hdates
        simp only at hdates
        rw [hs.2 hdates]

/-- C9, amended, on the worked example: with the commit list of `main` or
that of `feat` arriving first, both runs return, and as the three dates are
distinct they return the same final state. -/
theorem arrival_order_up_to_ties_witness :
    ∃ s, handleFetch 3 ["owner", "repo"] exampleNetwork idleState = some s ∧
      handleFetch 3 ["owner", "repo"] exampleNetworkSwapped idleState = some s := by
  obtain ⟨s1, s2, h1, h2, _, _, _, _, _, _, heq⟩ :=
    arrival_order_up_to_ties 3 ["owner", "repo"] exampleNetwork exampleNetworkSwapped idleState
      rfl rfl (List.reverse_perm _).symm (by decide)
      (acyclic_of_rankedBy _ exampleRank (by decide)) (by decide)
  have hs1 : s1 = (handleFetch 3 ["owner", "repo"] exampleNetwork idleState).getD idleState := by
    rw [h1]
    rfl
  have hnd : (s1.allFetchedCommits.map (fun c => c.date)).Nodup := by
    rw [hs1]
    decide
  rw [← heq hnd] at h2
  exact ⟨s1, h1, h2⟩

end Reposcape
